import Mathlib

/-!
Verification of the Dinari wallet core (key/address derivation, transaction
hashing, encrypted secret store, session guard) against its specification.

The JavaScript sources are shallowly embedded: bytes are `Nat` values below
256, byte arrays are `List Nat`, JavaScript strings are `List Char`, and the
platform primitives the code calls (WebCrypto AES-GCM and PBKDF2, `btoa` and
`atob`, the elliptic signing call) are abstracted as an explicit record of
external functions with their documented contracts taken as hypotheses.
Everything implemented in the repository itself (hex codec, Base58, SHA-256,
RIPEMD-160, secp256k1 point arithmetic, address derivation and validation,
transaction canonicalization, the storage and session logic) is embedded
concretely and executably.
-/

namespace Dinari

/-! ## Hex utilities (crypto.js hexToBytes and bytesToHex, BigInt hex parsing) -/

/-- Value of one hexadecimal digit character, case-insensitive; none for a
non-hex character. Models the digit handling of parseInt and BigInt. -/
def hexDigitToNat (c : Char) : Option Nat :=
  if c.toNat ≥ 48 ∧ c.toNat ≤ 57 then some (c.toNat - 48)
  else if c.toNat ≥ 97 ∧ c.toNat ≤ 102 then some (c.toNat - 87)
  else if c.toNat ≥ 65 ∧ c.toNat ≤ 70 then some (c.toNat - 55)
  else none

/-- Lowercase hexadecimal digit character for a value below 16, as produced
by JavaScript toString(16). -/
def natToHexDigit (d : Nat) : Char :=
  if d < 10 then Char.ofNat (48 + d) else Char.ofNat (87 + d)

/-- crypto.js hexToBytes: consumes the hex string two characters at a time,
each pair parsed as one byte. The repository only calls it on valid
even-length hex, where every digit lookup succeeds. -/
def hexToBytes : List Char → List Nat
  | c1 :: c2 :: rest =>
      (16 * (hexDigitToNat c1).getD 0 + (hexDigitToNat c2).getD 0) :: hexToBytes rest
  | _ => []

/-- crypto.js bytesToHex: each byte becomes two lowercase hex digits
(toString(16) padded to width 2); bytes come from Uint8Array so are < 256. -/
def bytesToHex (bytes : List Nat) : List Char :=
  bytes.flatMap fun b => [natToHexDigit (b / 16), natToHexDigit (b % 16)]

/-- Minimal hexadecimal digit expansion, most significant first, via fuel
recursion (the fuel only bounds iteration count; one digit is peeled per
step, so any fuel above the value itself is enough). -/
def natToHexAux : Nat → Nat → List Char
  | 0, _ => []
  | fuel + 1, n =>
      if n = 0 then [] else natToHexAux fuel (n / 16) ++ [natToHexDigit (n % 16)]

/-- JavaScript BigInt.prototype.toString(16): minimal lowercase hex, and the
single digit 0 for the value zero. -/
def natToHex (n : Nat) : List Char :=
  if n = 0 then [Char.ofNat 48] else natToHexAux (n + 1) n

/-- JavaScript BigInt of a 0x-prefixed string: fails on an empty digit part
or any non-hex digit, otherwise folds the digits most significant first. -/
def hexToNat (s : List Char) : Option Nat :=
  if s.isEmpty then none
  else s.foldl (fun acc c => acc.bind fun a => (hexDigitToNat c).map fun d => 16 * a + d)
    (some 0)

/-! ## Base58 codec (crypto.js base58Encode and base58Decode) -/

/-- The Base58 alphabet string literal of crypto.js. -/
def ALPHABET : List Char := "123456789ABCDEFGHJKLMNPQRSTUVWXYZabcdefghijkmnopqrstuvwxyz".data

/-- Alphabet character for a digit value below 58. -/
def b58Char (d : Nat) : Char := ALPHABET.getD d (Char.ofNat 32)

/-- Base-58 digit expansion of a value, most significant first: the encode
loop of base58Encode, which prepends ALPHABET of the remainder while the
value is positive. Fuel-based as in natToHexAux. -/
def encode58Aux : Nat → Nat → List Char
  | 0, _ => []
  | fuel + 1, n =>
      if n = 0 then [] else encode58Aux fuel (n / 58) ++ [b58Char (n % 58)]

/-- crypto.js base58Encode: interprets the bytes as a big-endian BigInt via
the hex string, expands in base 58, then prepends one alphabet zero per
leading zero byte. none models the thrown SyntaxError of BigInt applied to
the bare string 0x, which happens exactly on empty input. -/
def base58Encode (bytes : List Nat) : Option (List Char) :=
  (hexToNat (bytesToHex bytes)).map fun num =>
    (bytes.takeWhile (· = 0)).map (fun _ => b58Char 0) ++ encode58Aux (num + 1) num

/-- crypto.js base58Decode digit loop: ALPHABET.indexOf with a thrown error
(none) on a character outside the alphabet. -/
def decode58Num (s : List Char) : Option Nat :=
  s.foldl
    (fun acc c => acc.bind fun a =>
      let d := ALPHABET.indexOf c
      if d < 58 then some (58 * a + d) else none)
    (some 0)

/-- crypto.js base58Decode: rebuild the BigInt from the digits, render it as
hex padded to even length, convert hex to bytes, and prepend one zero byte
per leading alphabet-zero character of the input. -/
def base58Decode (s : List Char) : Option (List Nat) :=
  (decode58Num s).map fun num =>
    let hex := natToHex num
    let hex := if hex.length % 2 = 1 then Char.ofNat 48 :: hex else hex
    let bytes := hexToBytes hex
    (s.takeWhile (· = b58Char 0)).map (fun _ => 0) ++ bytes

/-! ## SHA-256 (the synchronous hash the source uses via CryptoJS.SHA256) -/

namespace Sha256

/-- Addition modulo 2^32, the word arithmetic of SHA-256. -/
def add32 (a b : Nat) : Nat := (a + b) % 4294967296

/-- Right rotation of a 32-bit word. -/
def rotr (n x : Nat) : Nat := ((x >>> n) ||| (x <<< (32 - n))) % 4294967296

/-- Bitwise complement within 32 bits. -/
def not32 (x : Nat) : Nat := x ^^^ 4294967295

def ch (x y z : Nat) : Nat := (x &&& y) ^^^ (not32 x &&& z)

def maj (x y z : Nat) : Nat := (x &&& y) ^^^ (x &&& z) ^^^ (y &&& z)

def bigSigma0 (x : Nat) : Nat := rotr 2 x ^^^ rotr 13 x ^^^ rotr 22 x

def bigSigma1 (x : Nat) : Nat := rotr 6 x ^^^ rotr 11 x ^^^ rotr 25 x

def smallSigma0 (x : Nat) : Nat := rotr 7 x ^^^ rotr 18 x ^^^ (x >>> 3)

def smallSigma1 (x : Nat) : Nat := rotr 17 x ^^^ rotr 19 x ^^^ (x >>> 10)

/-- The 64 SHA-256 round constants. -/
def K : List Nat :=
  [1116352408,1899447441,3049323471,3921009573,961987163,1508970993,
   2453635748,2870763221,3624381080,310598401,607225278,1426881987,1925078388,
   2162078206,2614888103,3248222580,3835390401,4022224774,264347078,604807628,
   770255983,1249150122,1555081692,1996064986,2554220882,2821834349,
   2952996808,3210313671,3336571891,3584528711,113926993,338241895,666307205,
   773529912,1294757372,1396182291,1695183700,1986661051,2177026350,
   2456956037,2730485921,2820302411,3259730800,3345764771,3516065817,
   3600352804,4094571909,275423344,430227734,506948616,659060556,883997877,
   958139571,1322822218,1537002063,1747873779,1955562222,2024104815,
   2227730452,2361852424,2428436474,2756734187,3204031479,3329325298]

/-- Working state of the compression function. -/
structure Hs where
  a : Nat
  b : Nat
  c : Nat
  d : Nat
  e : Nat
  f : Nat
  g : Nat
  h : Nat

/-- Initial hash state. -/
def H0 : Hs :=
  ⟨1779033703, 3144134277, 1013904242, 2773480762,
   1359893119, 2600822924, 528734635, 1541459225⟩

/-- Message-schedule extension: prepends the next word to the reversed
schedule (head is the most recent word), 48 times. -/
def scheduleAux : Nat → List Nat → List Nat
  | 0, ws => ws
  | fuel + 1, ws =>
      scheduleAux fuel
        (add32 (add32 (smallSigma1 (ws.getD 1 0)) (ws.getD 6 0))
          (add32 (smallSigma0 (ws.getD 14 0)) (ws.getD 15 0)) :: ws)

/-- Message schedule: the 16 block words extended to 64. -/
def schedule (block : List Nat) : List Nat := (scheduleAux 48 block.reverse).reverse

/-- One compression round; kw is the round constant already added to the
schedule word. -/
def round1 (s : Hs) (kw : Nat) : Hs :=
  let t1 := add32 s.h (add32 (bigSigma1 s.e) (add32 (ch s.e s.f s.g) kw))
  let t2 := add32 (bigSigma0 s.a) (maj s.a s.b s.c)
  ⟨add32 t1 t2, s.a, s.b, s.c, add32 s.d t1, s.e, s.f, s.g⟩

/-- Compression of one 16-word block into the chaining state. -/
def compressBlock (s : Hs) (block : List Nat) : Hs :=
  let kws := (K.zip (schedule block)).map fun p => add32 p.1 p.2
  let t := kws.foldl round1 s
  ⟨add32 s.a t.a, add32 s.b t.b, add32 s.c t.c, add32 s.d t.d,
   add32 s.e t.e, add32 s.f t.f, add32 s.g t.g, add32 s.h t.h⟩

/-- Big-endian byte expansion of a value to a fixed width. -/
def beBytes : Nat → Nat → List Nat
  | 0, _ => []
  | k + 1, n => beBytes k (n / 256) ++ [n % 256]

/-- Merkle-Damgard padding: a 0x80 byte, zeros to 56 mod 64, and the bit
length as 8 big-endian bytes. -/
def pad (msg : List Nat) : List Nat :=
  msg ++ 128 :: List.replicate ((64 - (msg.length + 9) % 64) % 64) 0
    ++ beBytes 8 (8 * msg.length)

/-- Big-endian 32-bit words from bytes, four at a time. -/
def wordsOfBytes : List Nat → List Nat
  | b1 :: b2 :: b3 :: b4 :: rest =>
      (16777216 * b1 + 65536 * b2 + 256 * b3 + b4) :: wordsOfBytes rest
  | _ => []

/-- Fixed-size chunking with fuel equal to the list length. -/
def chunksAux (sz : Nat) : Nat → List Nat → List (List Nat)
  | 0, _ => []
  | fuel + 1, l => if l.isEmpty then [] else l.take sz :: chunksAux sz fuel (l.drop sz)

def chunks (sz : Nat) (l : List Nat) : List (List Nat) := chunksAux sz l.length l

/-- SHA-256 of a byte list, returned as 32 bytes. -/
def sha256 (msg : List Nat) : List Nat :=
  let final := (chunks 16 (wordsOfBytes (pad msg))).foldl compressBlock H0
  [final.a, final.b, final.c, final.d, final.e, final.f, final.g, final.h].flatMap
    (beBytes 4)

end Sha256

/-- crypto.js sha256Sync over raw bytes (CryptoJS.SHA256 of the byte array). -/
def sha256Sync (data : List Nat) : List Nat := Sha256.sha256 data

/-! ## RIPEMD-160 (the source uses CryptoJS.RIPEMD160 for address hashing) -/

namespace Ripemd160

/-- Left rotation of a 32-bit word. -/
def rotl (n x : Nat) : Nat := ((x <<< n) ||| (x >>> (32 - n))) % 4294967296

/-- The five selection functions, chosen by the round quarter. -/
def fsel (q x y z : Nat) : Nat :=
  if q = 0 then x ^^^ y ^^^ z
  else if q = 1 then (x &&& y) ||| (Sha256.not32 x &&& z)
  else if q = 2 then (x ||| Sha256.not32 y) ^^^ z
  else if q = 3 then (x &&& z) ||| (y &&& Sha256.not32 z)
  else x ^^^ (y ||| Sha256.not32 z)

/-- Left-line round constants by quarter. -/
def kL (q : Nat) : Nat :=
  [0, 0x5a827999, 0x6ed9eba1, 0x8f1bbcdc, 0xa953fd4e].getD q 0

/-- Right-line round constants by quarter. -/
def kR (q : Nat) : Nat :=
  [0x50a28be6, 0x5c4dd124, 0x6d703ef3, 0x7a6d76e9, 0].getD q 0

/-- Left-line message word order. -/
def rL : List Nat :=
  [0,1,2,3,4,5,6,7,8,9,10,11,12,13,14,15,
   7,4,13,1,10,6,15,3,12,0,9,5,2,14,11,8,
   3,10,14,4,9,15,8,1,2,7,0,6,13,11,5,12,
   1,9,11,10,0,8,12,4,13,3,7,15,14,5,6,2,
   4,0,5,9,7,12,2,10,14,1,3,8,11,6,15,13]

/-- Right-line message word order. -/
def rR : List Nat :=
  [5,14,7,0,9,2,11,4,13,6,15,8,1,10,3,12,
   6,11,3,7,0,13,5,10,14,15,8,12,4,9,1,2,
   15,5,1,3,7,14,6,9,11,8,12,2,10,0,4,13,
   8,6,4,1,3,11,15,0,5,12,2,13,9,7,10,14,
   12,15,10,4,1,5,8,7,6,2,13,14,0,3,9,11]

/-- Left-line rotation amounts. -/
def sL : List Nat :=
  [11,14,15,12,5,8,7,9,11,13,14,15,6,7,9,8,
   7,6,8,13,11,9,7,15,7,12,15,9,11,7,13,12,
   11,13,6,7,14,9,13,15,14,8,13,6,5,12,7,5,
   11,12,14,15,14,15,9,8,9,14,5,6,8,6,5,12,
   9,15,5,11,6,8,13,12,5,12,13,14,11,8,5,6]

/-- Right-line rotation amounts. -/
def sR : List Nat :=
  [8,9,9,11,13,15,15,5,7,7,8,11,14,14,12,6,
   9,13,15,7,12,8,9,11,7,7,12,7,6,15,13,11,
   9,7,15,11,8,6,6,14,12,13,5,14,13,13,7,5,
   15,5,8,11,14,14,6,14,6,9,12,9,12,5,15,8,
   8,5,12,9,12,5,14,6,8,13,6,5,15,13,11,11]

/-- Five-word working state of one line. -/
structure St where
  a : Nat
  b : Nat
  c : Nat
  d : Nat
  e : Nat

/-- One step of one line at index j; q selects the round functions. -/
def step (block : List Nat) (rt st : List Nat) (qf kf : Nat → Nat)
    (s : St) (j : Nat) : St :=
  let t := Sha256.add32
    (rotl (st.getD j 0)
      (Sha256.add32 (Sha256.add32 s.a (fsel (qf j) s.b s.c s.d))
        (Sha256.add32 (block.getD (rt.getD j 0) 0) (kf j))))
    s.e
  ⟨s.e, t, s.b, rotl 10 s.c, s.d⟩

/-- Compression of one 16-word block. -/
def compressBlock (h : St) (block : List Nat) : St :=
  let left := (List.range 80).foldl
    (step block rL sL (fun j => j / 16) (fun j => kL (j / 16))) h
  let right := (List.range 80).foldl
    (step block rR sR (fun j => (79 - j) / 16) (fun j => kR (j / 16))) h
  ⟨Sha256.add32 h.b (Sha256.add32 left.c right.d),
   Sha256.add32 h.c (Sha256.add32 left.d right.e),
   Sha256.add32 h.d (Sha256.add32 left.e right.a),
   Sha256.add32 h.e (Sha256.add32 left.a right.b),
   Sha256.add32 h.a (Sha256.add32 left.b right.c)⟩

/-- Little-endian byte expansion of a value to a fixed width. -/
def leBytes : Nat → Nat → List Nat
  | 0, _ => []
  | k + 1, n => n % 256 :: leBytes k (n / 256)

/-- Padding as in SHA-256 but with the bit length little-endian. -/
def pad (msg : List Nat) : List Nat :=
  msg ++ 128 :: List.replicate ((64 - (msg.length + 9) % 64) % 64) 0
    ++ leBytes 8 (8 * msg.length)

/-- Little-endian 32-bit words from bytes, four at a time. -/
def wordsOfBytes : List Nat → List Nat
  | b1 :: b2 :: b3 :: b4 :: rest =>
      (b1 + 256 * b2 + 65536 * b3 + 16777216 * b4) :: wordsOfBytes rest
  | _ => []

/-- Initial state. -/
def H0 : St := ⟨0x67452301, 0xefcdab89, 0x98badcfe, 0x10325476, 0xc3d2e1f0⟩

/-- RIPEMD-160 of a byte list, returned as 20 bytes. -/
def ripemd160 (msg : List Nat) : List Nat :=
  let final := (Sha256.chunks 16 (wordsOfBytes (pad msg))).foldl compressBlock H0
  [final.a, final.b, final.c, final.d, final.e].flatMap (leBytes 4)

end Ripemd160

/-- crypto.js ripemd160 over raw bytes (CryptoJS.RIPEMD160). -/
def ripemd160 (data : List Nat) : List Nat := Ripemd160.ripemd160 data

/-! ## secp256k1 (the elliptic library used for public key derivation) -/

namespace Secp256k1

/-- The field prime. -/
def P : Nat := 2 ^ 256 - 2 ^ 32 - 977

/-- Generator x coordinate. -/
def Gx : Nat := 0x79be667ef9dcbbac55a06295ce870b07029bfcdb2dce28d959f2815b16f81798

/-- Generator y coordinate. -/
def Gy : Nat := 0x483ada7726a3c4655da4fbfc0e1108a8fd17b448a68554199c47d08ffb10d4b8

/-- Modular exponentiation by squaring, fuel-bounded (one exponent bit per
step, so any fuel above the exponent is enough). -/
def powModAux : Nat → Nat → Nat → Nat → Nat
  | 0, _, _, _ => 1
  | fuel + 1, b, e, m =>
      if e = 0 then 1
      else
        let r := powModAux fuel (b * b % m) (e / 2) m
        if e % 2 = 1 then r * b % m else r

def powMod (b e m : Nat) : Nat := powModAux (e + 1) (b % m) e m

/-- Modular inverse in the field via Fermat. -/
def inv (a : Nat) : Nat := powMod a (P - 2) P

/-- Affine point; none is the point at infinity. -/
def Point : Type := Option (Nat × Nat)

/-- Affine point addition with doubling and inverse-point cases. -/
def pointAdd : Point → Point → Point
  | none, q => q
  | p, none => p
  | some (x1, y1), some (x2, y2) =>
      if x1 % P = x2 % P then
        if (y1 + y2) % P = 0 then none
        else
          let lam := 3 * x1 * x1 % P * inv (2 * y1 % P) % P
          let x3 := (lam * lam + 2 * P - x1 % P - x2 % P) % P
          some (x3, (lam * ((x1 + P - x3) % P) + P - y1 % P) % P)
      else
        let lam := (y2 + P - y1 % P) % P * inv ((x2 + P - x1 % P) % P) % P
        let x3 := (lam * lam + 2 * P - x1 % P - x2 % P) % P
        some (x3, (lam * ((x1 + P - x3) % P) + P - y1 % P) % P)

/-- Double-and-add scalar multiplication, fuel-bounded on the scalar bits. -/
def mulAux : Nat → Nat → Point → Point
  | 0, _, _ => none
  | fuel + 1, k, p =>
      if k = 0 then none
      else
        let half := mulAux fuel (k / 2) (pointAdd p p)
        if k % 2 = 1 then pointAdd half p else half

def scalarMul (k : Nat) (p : Point) : Point := mulAux (k + 1) k p

end Secp256k1

/-- Zero-pad a hex string on the left to 64 characters, as the compressed
encoding of elliptic does for the x coordinate. -/
def padHex64 (s : List Char) : List Char :=
  List.replicate (64 - s.length) (Char.ofNat 48) ++ s

/-- crypto.js getPublicKeyFromPrivate: derive the secp256k1 public point of
the private scalar and encode it compressed (02 or 03 prefix by y parity,
then x as 64 hex chars). Callers in the repository validate the hex first;
an invalid or out-of-range hex is the error path of the library, not
reached by the claims checked here. -/
def getPublicKeyFromPrivate (privateKeyHex : List Char) : List Char :=
  let d := (hexToNat privateKeyHex).getD 0
  match Secp256k1.scalarMul d (some (Secp256k1.Gx, Secp256k1.Gy)) with
  | none => []
  | some (x, y) =>
      (if y % 2 = 1 then [Char.ofNat 48, Char.ofNat 51]
       else [Char.ofNat 48, Char.ofNat 50]) ++ padHex64 (natToHex x)

/-- The address version byte of crypto.js. -/
def ADDRESS_VERSION : Nat := 0x1e

/-- crypto.js publicKeyToAddress: SHA-256, then RIPEMD-160, prepend the
version byte, append the first four bytes of the double SHA-256 checksum,
and Base58-encode the 25 bytes. -/
def publicKeyToAddress (publicKeyHex : List Char) : Option (List Char) :=
  let publicKeyBytes := hexToBytes publicKeyHex
  let ripemd160Hash := ripemd160 (sha256Sync publicKeyBytes)
  let versionedPayload := ADDRESS_VERSION :: ripemd160Hash
  let checksum := (sha256Sync (sha256Sync versionedPayload)).take 4
  base58Encode (versionedPayload ++ checksum)

/-- crypto.js validateAddress: must start with D, Base58-decode to exactly
25 bytes with the right version byte and a matching recomputed checksum;
every failure, including a thrown decode error, yields false. -/
def validateAddress (address : List Char) : Bool :=
  if address.head? ≠ some (Char.ofNat 68) then false
  else
    match base58Decode address with
    | none => false
    | some decoded =>
        if decoded.length ≠ 25 then false
        else if decoded.getD 0 0 ≠ ADDRESS_VERSION then false
        else
          let payload := decoded.take 21
          let checksum := decoded.drop 21
          let expected := (sha256Sync (sha256Sync payload)).take 4
          checksum = expected

/-- A generated or imported wallet: private key hex, compressed public key
hex, address. -/
structure Wallet where
  privateKey : List Char
  publicKey : List Char
  address : List Char
deriving DecidableEq

/-- crypto.js importWallet: the private key must match the 64-hex-character
regex, else the InvalidKeyFormat error is thrown; otherwise the public key
and address are derived and the key is stored lowercased. -/
def importWallet (privateKeyHex : List Char) : Except (List Char) Wallet :=
  if privateKeyHex.length = 64 ∧ privateKeyHex.all fun c => (hexDigitToNat c).isSome
  then
    let publicKey := getPublicKeyFromPrivate privateKeyHex
    match publicKeyToAddress publicKey with
    | some address =>
        Except.ok ⟨privateKeyHex.map Char.toLower, publicKey, address⟩
    | none => Except.error "Failed to generate address".data
  else Except.error "Invalid private key format. Must be 64 hexadecimal characters.".data

/-! ## Transaction canonicalization and signing (crypto.js) -/

/-- A JavaScript value as it can appear in a transaction field: string,
number (integral values modelled), boolean, null, or the absent or
undefined value. -/
inductive JSVal where
  | str : List Char → JSVal
  | num : Int → JSVal
  | bool : Bool → JSVal
  | null : JSVal
  | undef : JSVal
deriving DecidableEq

/-- JavaScript truthiness of a field value (0, the empty string, false,
null and undefined are falsy). -/
def truthy : JSVal → Bool
  | .str s => !s.isEmpty
  | .num n => n ≠ 0
  | .bool b => b
  | .null => false
  | .undef => false

/-- The JavaScript or-else operator as used in tx.fee or tx.feeDNT. -/
def jsOr (a b : JSVal) : JSVal := if truthy a then a else b

/-- Decimal digit expansion, most significant first, fuel-bounded. -/
def decDigitsAux : Nat → Nat → List Char
  | 0, _ => []
  | fuel + 1, n =>
      if n = 0 then [] else decDigitsAux fuel (n / 10) ++ [Char.ofNat (48 + n % 10)]

/-- JavaScript number-to-string for integral values. -/
def intToChars (n : Int) : List Char :=
  if n = 0 then [Char.ofNat 48]
  else if n < 0 then Char.ofNat 45 :: decDigitsAux (n.natAbs + 1) n.natAbs
  else decDigitsAux (n.natAbs + 1) n.natAbs

/-- JSON string escaping for the quote and backslash characters. -/
def jsonEscape (s : List Char) : List Char :=
  s.flatMap fun c => if c = Char.ofNat 34 ∨ c = Char.ofNat 92 then [Char.ofNat 92, c] else [c]

/-- JSON.stringify of one value; none for undefined, whose key is omitted
from object serialization. -/
def serializeVal : JSVal → Option (List Char)
  | .str s => some (Char.ofNat 34 :: jsonEscape s ++ [Char.ofNat 34])
  | .num n => some (intToChars n)
  | .bool b => some (if b then "true".data else "false".data)
  | .null => some "null".data
  | .undef => none

/-- One serialized key-value pair, or none when the value is undefined. -/
def jsonPair (name : List Char) (v : JSVal) : Option (List Char) :=
  (serializeVal v).map fun s =>
    Char.ofNat 34 :: name ++ [Char.ofNat 34, Char.ofNat 58] ++ s

/-- Comma-join. -/
def joinComma : List (List Char) → List Char
  | [] => []
  | [p] => p
  | p :: rest => p ++ Char.ofNat 44 :: joinComma rest

/-- A transaction object. The field called from in JavaScript is fromAddr
here and the field called to is toAddr, because from and to are Lean keywords; absent fields are undef, matching the
undefined a JavaScript property read yields. -/
structure Tx where
  fromAddr : JSVal
  toAddr : JSVal
  amount : JSVal
  tokenType : JSVal
  fee : JSVal
  feeDNT : JSVal
  nonce : JSVal
  signature : JSVal
  publicKey : JSVal
deriving DecidableEq

/-- The deterministic JSON string hashTransaction builds: the object
literal with keys in the fixed order from, to, amount, tokenType, fee,
nonce, where the fee slot is tx.fee or tx.feeDNT and undefined-valued keys
are omitted by JSON.stringify. -/
def txData (tx : Tx) : List Char :=
  Char.ofNat 123 ::
    joinComma ([jsonPair "from".data tx.fromAddr,
      jsonPair "to".data tx.toAddr,
      jsonPair "amount".data tx.amount,
      jsonPair "tokenType".data tx.tokenType,
      jsonPair "fee".data (jsOr tx.fee tx.feeDNT),
      jsonPair "nonce".data tx.nonce].filterMap id)
    ++ [Char.ofNat 125]

/-- TextEncoder applied to the canonical JSON (exact for strings whose
characters are below 128, which covers every string the claims touch). -/
def strBytes (s : List Char) : List Nat := s.map Char.toNat

/-- Byte-to-character decoding, inverse of strBytes on the same range. -/
def bytesToStr (bs : List Nat) : List Char := bs.map Char.ofNat

/-- crypto.js hashTransaction: SHA-256 of the canonical JSON, as hex. -/
def hashTransaction (tx : Tx) : List Char :=
  bytesToHex (sha256Sync (strBytes (txData tx)))

/-- crypto.js signTransaction: hash, sign (the elliptic signing call is
abstracted as the sign argument), derive the public key, and return the
spread copy of the transaction with signature and publicKey attached. -/
def signTransaction (sign : List Char → List Char → List Char)
    (tx : Tx) (privateKeyHex : List Char) : Tx :=
  let txHash := hashTransaction tx
  let signature := sign txHash privateKeyHex
  let publicKey := getPublicKeyFromPrivate privateKeyHex
  { tx with signature := .str signature, publicKey := .str publicKey }

/-! ## Encrypted secret store (storage.js) -/

namespace Storage

/-- Decrypted sensitive half of the wallet record. -/
structure SensitiveData where
  privateKey : List Char
  seedPhrase : Option (List Char)
deriving DecidableEq

/-- The platform primitives storage.js calls, abstracted with their
documented contracts left as hypotheses of the theorems: kdf is the PBKDF2
key derivation of deriveKey (100 000 iterations of SHA-256, deterministic
because it is a function), aeadEnc and aeadDec are WebCrypto AES-256-GCM,
b64e and b64d are btoa and atob (atob can throw, hence Option), and
parseSensitive is JSON.parse of the decrypted payload. -/
structure Ext where
  kdf : List Char → List Nat → List Nat
  aeadEnc : List Nat → List Nat → List Nat → List Nat
  aeadDec : List Nat → List Nat → List Nat → Option (List Nat)
  b64e : List Nat → List Char
  b64d : List Char → Option (List Nat)
  parseSensitive : List Char → Except (List Char) SensitiveData

/-- The EncryptedSecret record encrypt returns. -/
structure EncryptedSecret where
  encrypted : List Char
  salt : List Char
  iv : List Char
deriving DecidableEq

/-- storage.js encrypt: fresh salt and iv are drawn by getRandomBytes and
appear here as explicit arguments; the key is derived from password and
salt, the plaintext AEAD-encrypted, and all three parts Base64-encoded. -/
def encrypt (E : Ext) (plaintext password : List Char)
    (salt iv : List Nat) : EncryptedSecret :=
  let key := E.kdf password salt
  ⟨E.b64e (E.aeadEnc key iv (strBytes plaintext)), E.b64e salt, E.b64e iv⟩

/-- The single undifferentiated error message of storage.js decrypt. -/
def decryptFailedMsg : List Char :=
  "Decryption failed - incorrect password or corrupted data".data

/-- storage.js decrypt: Base64-decode the parts, re-derive the key from the
given password and the stored salt, AEAD-decrypt with the stored iv; every
failure inside the try block surfaces as the one fixed message. -/
def decrypt (E : Ext) (es : EncryptedSecret) (password : List Char) :
    Except (List Char) (List Char) :=
  match E.b64d es.salt, E.b64d es.iv, E.b64d es.encrypted with
  | some salt, some iv, some encrypted =>
      match E.aeadDec (E.kdf password salt) iv encrypted with
      | some pt => .ok (bytesToStr pt)
      | none => .error decryptFailedMsg
  | _, _, _ => .error decryptFailedMsg

/-- The persisted wallet record of storage.js saveWallet. -/
structure WalletRecord where
  encrypted_data : List Char
  salt : List Char
  iv : List Char
  address : List Char
  public_key : List Char
deriving DecidableEq

/-- What loadWallet returns on success. -/
structure LoadedWallet where
  privateKey : List Char
  seedPhrase : Option (List Char)
  address : List Char
  publicKey : List Char
deriving DecidableEq

/-- storage.js loadWallet: no record, a decryption failure, or a parse
failure all rethrow wrapped in the Failed to load wallet prefix; on success
the decrypted sensitive half joins the stored address and public key. -/
def loadWallet (E : Ext) (wallet : Option WalletRecord) (password : List Char) :
    Except (List Char) LoadedWallet :=
  match wallet with
  | none => .error ("Failed to load wallet: ".data ++ "No wallet found".data)
  | some w =>
      match decrypt E ⟨w.encrypted_data, w.salt, w.iv⟩ password with
      | .error e => .error ("Failed to load wallet: ".data ++ e)
      | .ok decryptedJson =>
          match E.parseSensitive decryptedJson with
          | .error e => .error ("Failed to load wallet: ".data ++ e)
          | .ok sd => .ok ⟨sd.privateKey, sd.seedPhrase, w.address, w.public_key⟩

/-- storage.js verifyPassword: attempt the decryption and collapse the
outcome to a boolean, false when no wallet record exists or any error is
thrown. -/
def verifyPassword (E : Ext) (wallet : Option WalletRecord) (password : List Char) :
    Bool :=
  match wallet with
  | none => false
  | some w =>
      match decrypt E ⟨w.encrypted_data, w.salt, w.iv⟩ password with
      | .ok _ => true
      | .error _ => false

/-! ## Session guard (storage.js and the service worker) -/

/-- The session record. -/
structure Session where
  unlocked : Bool
  last_activity : Int
deriving DecidableEq

/-- The settings record; only the auto-lock timeout matters here. -/
structure Settings where
  auto_lock_minutes : Int
deriving DecidableEq

/-- DEFAULT_SETTINGS of storage.js. -/
def DEFAULT_SETTINGS : Settings := ⟨5⟩

/-- storage.js getSession with its default for an absent record. -/
def getSession (s : Option Session) : Session := s.getD ⟨false, 0⟩

/-- storage.js getSettings with its default for an absent record. -/
def getSettings (s : Option Settings) : Settings := s.getD DEFAULT_SETTINGS

/-- storage.js isSessionValid: false when locked, otherwise the time since
last activity must be strictly below the auto-lock window. -/
def isSessionValid (session : Option Session) (settings : Option Settings)
    (now : Int) : Bool :=
  let s := getSession session
  if !s.unlocked then false
  else
    let autoLockMs := (getSettings settings).auto_lock_minutes * 60 * 1000
    let timeSinceActivity := now - s.last_activity
    timeSinceActivity < autoLockMs

/-- service-worker.js checkAutoLock: with an unlocked session past its
window, overwrite the session as locked; otherwise leave storage alone. -/
def checkAutoLock (session : Option Session) (settings : Option Settings)
    (now : Int) : Option Session :=
  match session with
  | none => none
  | some s =>
      if !s.unlocked then session
      else
        let autoLockMs := (settings.getD ⟨5⟩).auto_lock_minutes * 60 * 1000
        if now - s.last_activity ≥ autoLockMs then some ⟨false, 0⟩ else session

end Storage

/-! ## Mnemonic word list (crypto.js WORDLIST, all 234 entries) -/

/-- The fixed word list of crypto.js (its comment says 200 common words; the
literal actually holds 234). -/
def WORDLIST : List String :=
  ["abandon","ability","able","about","above","absent","absorb","abstract","absurd","abuse",
   "access","accident","account","accuse","achieve","acid","acoustic","acquire","across","act",
   "action","actor","actress","actual","adapt","add","addict","address","adjust","admit","adult",
   "advance","advice","aerobic","afford","afraid","again","age","agent","agree","ahead","aim",
   "air","airport","aisle","alarm","album","alcohol","alert","alien","all","alley","allow",
   "almost","alone","alpha","already","also","alter","always","amateur","amazing","among",
   "amount","amused","analyst","anchor","ancient","anger","angle","angry","animal","ankle",
   "announce","annual","another","answer","antenna","antique","anxiety","any","apart","apology",
   "appear","apple","approve","april","arch","arctic","area","arena","argue","arm","armed",
   "armor","army","around","arrange","arrest","arrive","arrow","art","artefact","artist",
   "artwork","ask","aspect","assault","asset","assist","assume","asthma","athlete","atom",
   "attack","attend","attitude","attract","auction","audit","august","aunt","author","auto",
   "autumn","average","avocado","avoid","awake","aware","away","awesome","awful","awkward","axis",
   "baby","bachelor","bacon","badge","bag","balance","balcony","ball","bamboo","banana","banner",
   "bar","barely","bargain","barrel","base","basic","basket","battle","beach","bean","beauty",
   "because","become","beef","before","begin","behave","behind","believe","below","belt","bench",
   "benefit","best","betray","better","between","beyond","bicycle","bid","bike","bind","biology",
   "bird","birth","bitter","black","blade","blame","blanket","blast","bleak","bless","blind",
   "blood","blossom","blouse","blue","blur","blush","board","boat","body","boil","bomb","bone",
   "bonus","book","boost","border","boring","borrow","boss","bottom","bounce","box","boy",
   "bracket","brain","brand","brass","brave","bread","breeze","brick","bridge","brief","bright",
   "bring","brisk","broccoli","broken","bronze","broom","brother","brown","brush","bubble"]


/-- crypto.js generateMnemonic maps each 32-bit draw of getRandomValues to
a word index by reduction modulo the word-list length. -/
def wordIndex (w : Nat) : Nat := w % WORDLIST.length

/-- crypto.js generateMnemonic with the twelve 32-bit RNG draws passed
explicitly: each draw selects WORDLIST at its reduced index, and the words
are joined with single spaces. -/
def generateMnemonic (randoms : List Nat) : String :=
  String.intercalate " " (((randoms.take 12).map fun r => WORDLIST.getD (wordIndex r) ""))

/-- Number of 32-bit values that select word index i: the preimage count of
wordIndex on the RNG domain. -/
def preimageCount (i : Nat) : Nat :=
  ((Finset.range (2 ^ 32)).filter fun w => wordIndex w = i).card

/-! ## Concrete external primitives for the witnesses

A small instantiation of the abstracted platform record, used only to
evaluate theorems with hypotheses at concrete inputs: the derived key is
the password bytes joined to the salt behind an out-of-band separator, the
AEAD prepends key and iv as an authentication prefix and strips it on
decryption only when it matches, and Base64 is modelled by the code-point
embedding, which is inverse on byte lists. -/

def extModel : Storage.Ext where
  kdf password salt := strBytes password ++ 256 :: salt
  aeadEnc key iv pt := key ++ iv ++ pt
  aeadDec key iv ct :=
    if ct.take key.length = key ∧ (ct.drop key.length).take iv.length = iv
    then some ((ct.drop key.length).drop iv.length) else none
  b64e bs := bs.map Char.ofNat
  b64d s := some (s.map Char.toNat)
  parseSensitive s :=
    if s.isEmpty then .error "Unexpected end of JSON input".data
    else .ok ⟨s, none⟩

/-- Flip one bit of a byte array: bit j lives in byte j / 8. -/
def flipBit (j : Nat) (bs : List Nat) : List Nat :=
  bs.set (j / 8) (bs.getD (j / 8) 0 ^^^ (1 <<< (j % 8)))

/-- The 25 bytes publicKeyToAddress assembles before Base58 encoding:
version byte, RIPEMD-160 of SHA-256 of the public key bytes, and the first
four bytes of the double-SHA-256 checksum. -/
def addressBytes (publicKeyHex : List Char) : List Nat :=
  let versionedPayload := ADDRESS_VERSION :: ripemd160 (sha256Sync (hexToBytes publicKeyHex))
  versionedPayload ++ (sha256Sync (sha256Sync versionedPayload)).take 4

/-- A transaction whose fee field is the falsy 0 and whose feeDNT is 3. -/
def txFalsyFeeA : Tx :=
  ⟨.str "a".data, .str "b".data, .num 1, .str "DNT".data, .num 0, .num 3, .num 1,
   .undef, .undef⟩

/-- The same six signable field values, but feeDNT is 7. -/
def txFalsyFeeB : Tx :=
  ⟨.str "a".data, .str "b".data, .num 1, .str "DNT".data, .num 0, .num 7, .num 1,
   .undef, .undef⟩

/-- Sum view of an Except value, for deciding equalities of results. -/
def exceptToSum {e a : Type} : Except e a → e ⊕ a
  | .error x => .inl x
  | .ok x => .inr x

instance {e a : Type} [DecidableEq e] [DecidableEq a] : DecidableEq (Except e a) :=
  fun x y => decidable_of_iff (exceptToSum x = exceptToSum y)
    (by cases x <;> cases y <;> simp [exceptToSum])

/-! ## C1: encrypt and decrypt round-trip -/

/-- C1: for every plaintext p and password pw, decrypting the
EncryptedSecret produced by encrypt(p, pw) with the same password returns
exactly p. The key is re-derived from the stored salt by the same
deterministic derivation, and the hypotheses are the documented contracts
of the abstracted platform primitives at the values used: atob inverts
btoa on the stored salt, iv and ciphertext, and AES-GCM decryption inverts
encryption under the same key and iv. -/
theorem encrypt_decrypt_roundtrip (E : Storage.Ext) (p pw : List Char)
    (salt iv : List Nat)
    (hsalt : E.b64d (E.b64e salt) = some salt)
    (hiv : E.b64d (E.b64e iv) = some iv)
    (hct : E.b64d (E.b64e (E.aeadEnc (E.kdf pw salt) iv (strBytes p)))
      = some (E.aeadEnc (E.kdf pw salt) iv (strBytes p)))
    (haead : E.aeadDec (E.kdf pw salt) iv (E.aeadEnc (E.kdf pw salt) iv (strBytes p))
      = some (strBytes p)) :
    Storage.decrypt E (Storage.encrypt E p pw salt iv) pw = Except.ok p := by
  unfold Storage.decrypt Storage.encrypt
  simp only [hsalt, hiv, hct, haead]
  simp [bytesToStr, strBytes, List.map_map, Function.comp_def]

/-- Witness for C1: the scenario plaintext and password of the spec with a
concrete salt and iv under the concrete platform model. -/
theorem encrypt_decrypt_roundtrip_witness :
    Storage.decrypt extModel
      (Storage.encrypt extModel "secret-payload".data "correct-horse".data [1, 2] [3])
      "correct-horse".data = Except.ok "secret-payload".data :=
  encrypt_decrypt_roundtrip extModel "secret-payload".data "correct-horse".data [1, 2] [3]
    (by decide) (by decide) (by decide) (by decide)

/-! ## C2: tampering and wrong passwords fail with one undifferentiated error -/

/-- C2: decrypting a ciphertext with one bit flipped using the correct
password, and decrypting the untampered ciphertext with a wrong password,
both fail with the single fixed DecryptionFailed message and never return
a plaintext; the error does not distinguish the two cases. The AEAD
rejections themselves are the authenticity contract of AES-GCM, taken as
hypotheses on the abstracted primitive at the values used. -/
theorem decrypt_tamper_wrong_password_single_error (E : Storage.Ext)
    (p pw pw2 : List Char) (salt iv : List Nat) (j : Nat)
    (hsalt : E.b64d (E.b64e salt) = some salt)
    (hiv : E.b64d (E.b64e iv) = some iv)
    (hct : E.b64d (E.b64e (E.aeadEnc (E.kdf pw salt) iv (strBytes p)))
      = some (E.aeadEnc (E.kdf pw salt) iv (strBytes p)))
    (hctFlip : E.b64d (E.b64e (flipBit j (E.aeadEnc (E.kdf pw salt) iv (strBytes p))))
      = some (flipBit j (E.aeadEnc (E.kdf pw salt) iv (strBytes p))))
    (hauth : E.aeadDec (E.kdf pw salt) iv
      (flipBit j (E.aeadEnc (E.kdf pw salt) iv (strBytes p))) = none)
    (hwrong : E.aeadDec (E.kdf pw2 salt) iv
      (E.aeadEnc (E.kdf pw salt) iv (strBytes p)) = none) :
    Storage.decrypt E
      { Storage.encrypt E p pw salt iv with
        encrypted := E.b64e (flipBit j (E.aeadEnc (E.kdf pw salt) iv (strBytes p))) }
      pw = Except.error Storage.decryptFailedMsg ∧
    Storage.decrypt E (Storage.encrypt E p pw salt iv) pw2
      = Except.error Storage.decryptFailedMsg := by
  constructor
  · unfold Storage.decrypt Storage.encrypt
    simp only [hsalt, hiv, hctFlip, hauth]
  · unfold Storage.decrypt Storage.encrypt
    simp only [hsalt, hiv, hct, hwrong]

/-- Witness for C2: a concrete bit flip in the authentication prefix and a
concrete wrong password under the concrete platform model, both observed
to fail with the identical message. -/
theorem decrypt_tamper_wrong_password_single_error_witness :
    Storage.decrypt extModel
      { Storage.encrypt extModel "hi".data "a".data [1] [2] with
        encrypted := extModel.b64e (flipBit 0
          (extModel.aeadEnc (extModel.kdf "a".data [1]) [2] (strBytes "hi".data))) }
      "a".data = Except.error Storage.decryptFailedMsg ∧
    Storage.decrypt extModel (Storage.encrypt extModel "hi".data "a".data [1] [2])
      "b".data = Except.error Storage.decryptFailedMsg :=
  decrypt_tamper_wrong_password_single_error extModel "hi".data "a".data "b".data
    [1] [2] 0 (by decide) (by decide) (by decide) (by decide) (by decide) (by decide)

/-! ## C5: the session-validity predicate -/

/-- C5: the session-validity predicate equals unlocked AND
(now - lastActivityMs) < autoLockMinutes * 60000 for every session state,
settings value and current time; with autoLockMinutes = 5 a session idle
for 5 minutes and a millisecond is invalid, one idle for 4 minutes is
valid, and a locked session is invalid regardless of activity. -/
theorem isSessionValid_spec :
    (∀ (session : Option Storage.Session) (settings : Option Storage.Settings) (now : Int),
      Storage.isSessionValid session settings now =
        ((Storage.getSession session).unlocked &&
          decide (now - (Storage.getSession session).last_activity <
            (Storage.getSettings settings).auto_lock_minutes * 60000))) ∧
    (∀ now : Int,
      Storage.isSessionValid (some ⟨true, now - (5 * 60 * 1000 + 1)⟩) (some ⟨5⟩) now
        = false ∧
      Storage.isSessionValid (some ⟨true, now - 4 * 60 * 1000⟩) (some ⟨5⟩) now
        = true) ∧
    (∀ (last : Int) (settings : Option Storage.Settings) (now : Int),
      Storage.isSessionValid (some ⟨false, last⟩) settings now = false) := by
  refine ⟨fun session settings now => ?_, fun now => ⟨?_, ?_⟩, fun last settings now => ?_⟩
  · unfold Storage.isSessionValid
    cases h : (Storage.getSession session).unlocked <;>
      simp [h, show ((60 : Int) * 1000) = 60000 by norm_num, mul_assoc]
  · simp [Storage.isSessionValid, Storage.getSession, Storage.getSettings]
  · simp [Storage.isSessionValid, Storage.getSession, Storage.getSettings]
  · simp [Storage.isSessionValid, Storage.getSession]

/-! ## C7: validateAddress and verifyPassword are total boolean predicates -/

/-- Exact characterization of validateAddress: true iff the string starts
with D, Base58 decoding succeeds, and the decoded bytes have length 25,
the right version byte and a matching checksum. -/
theorem validateAddress_iff (address : List Char) :
    validateAddress address = true ↔
      (address.head? = some (Char.ofNat 68) ∧
        ∃ decoded, base58Decode address = some decoded ∧
          decoded.length = 25 ∧ decoded.getD 0 0 = ADDRESS_VERSION ∧
          decoded.drop 21 = (sha256Sync (sha256Sync (decoded.take 21))).take 4) := by
  unfold validateAddress
  by_cases hd : address.head? = some (Char.ofNat 68)
  · rw [if_neg (fun hc => hc hd)]
    cases hdec : base58Decode address with
    | none =>
        refine iff_of_false (by simp) ?_
        rintro ⟨-, d, hd2, -⟩
        exact Option.noConfusion hd2
    | some decoded =>
        dsimp only
        by_cases h25 : decoded.length = 25
        · rw [if_neg (fun hc => hc h25)]
          by_cases hver : decoded.getD 0 0 = ADDRESS_VERSION
          · rw [if_neg (fun hc => hc hver), decide_eq_true_eq]
            constructor
            · intro hchk
              exact ⟨hd, decoded, rfl, h25, hver, hchk⟩
            · rintro ⟨-, d, hd2, -, -, hchk⟩
              cases Option.some.inj hd2
              exact hchk
          · rw [if_pos hver]
            refine iff_of_false (by simp) ?_
            rintro ⟨-, d, hd2, -, hv, -⟩
            cases Option.some.inj hd2
            exact hver hv
        · rw [if_pos h25]
          refine iff_of_false (by simp) ?_
          rintro ⟨-, d, hd2, h25x, -⟩
          cases Option.some.inj hd2
          exact h25 h25x
  · rw [if_pos hd]
    refine iff_of_false (by simp) ?_
    rintro ⟨hdx, -⟩
    exact hd hdx

/-- validateAddress is false when the characterization fails. -/
theorem validateAddress_eq_false (address : List Char)
    (h : (address.head? = some (Char.ofNat 68) ∧
      ∃ decoded, base58Decode address = some decoded ∧
        decoded.length = 25 ∧ decoded.getD 0 0 = ADDRESS_VERSION ∧
        decoded.drop 21 = (sha256Sync (sha256Sync (decoded.take 21))).take 4) → False) :
    validateAddress address = false := by
  cases hv : validateAddress address with
  | false => rfl
  | true => exact absurd ((validateAddress_iff address).mp hv) h

/-- Exact characterization of verifyPassword. -/
theorem verifyPassword_iff (E : Storage.Ext) (wallet : Option Storage.WalletRecord)
    (password : List Char) :
    Storage.verifyPassword E wallet password = true ↔
      (∃ w, wallet = some w ∧ ∃ pt,
        Storage.decrypt E ⟨w.encrypted_data, w.salt, w.iv⟩ password = Except.ok pt) := by
  unfold Storage.verifyPassword
  cases wallet with
  | none => simp
  | some w =>
      cases hdec : Storage.decrypt E ⟨w.encrypted_data, w.salt, w.iv⟩ password with
      | ok pt => simp [hdec]
      | error e => simp [hdec]

/-- C7: validateAddress and verifyPassword are total boolean functions.
validateAddress is true exactly when the string starts with D, Base58
decoding succeeds (a bad alphabet character makes it false rather than
propagating the thrown error), the decoded length is 25, the version byte
is 0x1E and the checksum matches; every other input yields false.
verifyPassword is true exactly when a wallet record exists and decryption
succeeds, and false otherwise, swallowing the decryption error. -/
theorem validateAddress_verifyPassword_total :
    (∀ address : List Char, validateAddress address = true ↔
      (address.head? = some (Char.ofNat 68) ∧
        ∃ decoded, base58Decode address = some decoded ∧
          decoded.length = 25 ∧ decoded.getD 0 0 = ADDRESS_VERSION ∧
          decoded.drop 21 = (sha256Sync (sha256Sync (decoded.take 21))).take 4)) ∧
    (∀ (E : Storage.Ext) (wallet : Option Storage.WalletRecord) (password : List Char),
      Storage.verifyPassword E wallet password = true ↔
        (∃ w, wallet = some w ∧ ∃ pt,
          Storage.decrypt E ⟨w.encrypted_data, w.salt, w.iv⟩ password = Except.ok pt)) :=
  ⟨validateAddress_iff, verifyPassword_iff⟩

/-- Witness for C7: a malformed address (wrong leading character) yields
false rather than an error, and verifyPassword with no wallet record
yields false. -/
theorem validateAddress_verifyPassword_total_witness :
    validateAddress "x".data = false ∧
    Storage.verifyPassword extModel none "pw".data = false := by
  constructor
  · have h := (validateAddress_verifyPassword_total.1 "x".data)
    cases hv : validateAddress "x".data with
    | false => rfl
    | true =>
        obtain ⟨hd, _⟩ := h.mp hv
        exact absurd hd (by decide)
  · have h := (validateAddress_verifyPassword_total.2 extModel none "pw".data)
    cases hv : Storage.verifyPassword extModel none "pw".data with
    | false => rfl
    | true =>
        obtain ⟨w, hw, _⟩ := h.mp hv
        exact absurd hw (by simp)

/-! ## C8: loadWallet wraps the decryption error instead of rethrowing it verbatim -/

/-- Counterexample for C8: at a concrete store whose decryption fails, the
error loadWallet throws is the DecryptionFailed message wrapped in the
Failed to load wallet prefix, not the verbatim error decrypt produced. -/
theorem loadWallet_error_not_verbatim :
    Storage.decrypt extModel ⟨"AAAA".data, "BB".data, "CC".data⟩ "pw".data
      = Except.error Storage.decryptFailedMsg ∧
    Storage.loadWallet extModel
      (some ⟨"AAAA".data, "BB".data, "CC".data, "addr".data, "pub".data⟩) "pw".data
      = Except.error ("Failed to load wallet: ".data ++ Storage.decryptFailedMsg) ∧
    ("Failed to load wallet: ".data ++ Storage.decryptFailedMsg) ≠
      Storage.decryptFailedMsg := by
  have hdec : Storage.decrypt extModel ⟨"AAAA".data, "BB".data, "CC".data⟩ "pw".data
      = Except.error Storage.decryptFailedMsg := by decide
  refine ⟨hdec, ?_, by decide⟩
  unfold Storage.loadWallet
  dsimp only
  simp only [hdec]

/-- C8 amended: when decryption of the stored secret fails during
loadWallet, the caller observes the DecryptionFailed message with the
Failed to load wallet prefix prepended — the decrypt error is preserved as
a suffix but not propagated verbatim. -/
theorem loadWallet_wraps_decrypt_error (E : Storage.Ext)
    (w : Storage.WalletRecord) (password : List Char)
    (h : Storage.decrypt E ⟨w.encrypted_data, w.salt, w.iv⟩ password
      = Except.error Storage.decryptFailedMsg) :
    Storage.loadWallet E (some w) password
      = Except.error ("Failed to load wallet: ".data ++ Storage.decryptFailedMsg) := by
  unfold Storage.loadWallet
  dsimp only
  simp only [h]

/-- Witness for C8: the amended wrapping behaviour at the concrete failing
store. -/
theorem loadWallet_wraps_decrypt_error_witness :
    Storage.loadWallet extModel
      (some ⟨"AAAA".data, "BB".data, "CC".data, "addr".data, "pub".data⟩) "pw".data
      = Except.error ("Failed to load wallet: ".data ++ Storage.decryptFailedMsg) :=
  loadWallet_wraps_decrypt_error extModel
    ⟨"AAAA".data, "BB".data, "CC".data, "addr".data, "pub".data⟩ "pw".data (by decide)

/-! ## C4: what hashTransaction actually depends on -/

/-- Counterexample for C4: two transactions that agree on all six signable
fields (from, to, amount, tokenType, fee, nonce) but differ in feeDNT hash
differently, because the fee slot is tx.fee or tx.feeDNT under JavaScript
truthiness and a fee of 0 is falsy, so the feeDNT value leaks into the
canonical JSON. -/
theorem hashTransaction_not_only_six_fields :
    txFalsyFeeA.fromAddr = txFalsyFeeB.fromAddr ∧
    txFalsyFeeA.toAddr = txFalsyFeeB.toAddr ∧
    txFalsyFeeA.amount = txFalsyFeeB.amount ∧
    txFalsyFeeA.tokenType = txFalsyFeeB.tokenType ∧
    txFalsyFeeA.fee = txFalsyFeeB.fee ∧
    txFalsyFeeA.nonce = txFalsyFeeB.nonce ∧
    hashTransaction txFalsyFeeA ≠ hashTransaction txFalsyFeeB := by
  refine ⟨rfl, rfl, rfl, rfl, rfl, rfl, ?_⟩
  decide

/-- C4 amended: hashTransaction depends only on from, to, amount,
tokenType, nonce and the effective fee (fee when truthy, else feeDNT):
two transactions agreeing on those hash byte-identically regardless of
extra fields such as signature, publicKey or other metadata, and
hashTransaction of signTransaction(tx, k) equals hashTransaction of tx. -/
theorem hashTransaction_signable_fields (tx1 tx2 : Tx)
    (h1 : tx1.fromAddr = tx2.fromAddr) (h2 : tx1.toAddr = tx2.toAddr)
    (h3 : tx1.amount = tx2.amount) (h4 : tx1.tokenType = tx2.tokenType)
    (h5 : jsOr tx1.fee tx1.feeDNT = jsOr tx2.fee tx2.feeDNT)
    (h6 : tx1.nonce = tx2.nonce) :
    hashTransaction tx1 = hashTransaction tx2 ∧
    (∀ sign k, hashTransaction (signTransaction sign tx1 k) = hashTransaction tx1) := by
  constructor
  · unfold hashTransaction txData
    rw [h1, h2, h3, h4, h5, h6]
  · intro sign k
    rfl

/-- Witness for C4: the fee carried in the field named fee versus the one
named feeDNT (both truthy), and a concrete signed copy, all hash alike. -/
theorem hashTransaction_signable_fields_witness :
    hashTransaction ⟨.str "a".data, .str "b".data, .num 1, .str "DNT".data,
        .num 5, .undef, .num 1, .undef, .undef⟩
      = hashTransaction ⟨.str "a".data, .str "b".data, .num 1, .str "DNT".data,
        .undef, .num 5, .num 1, .undef, .undef⟩ ∧
    hashTransaction (signTransaction (fun _ _ => "sig".data)
        ⟨.str "a".data, .str "b".data, .num 1, .str "DNT".data,
          .num 5, .undef, .num 1, .undef, .undef⟩ "ab".data)
      = hashTransaction ⟨.str "a".data, .str "b".data, .num 1, .str "DNT".data,
        .num 5, .undef, .num 1, .undef, .undef⟩ := by
  have h := hashTransaction_signable_fields
    ⟨.str "a".data, .str "b".data, .num 1, .str "DNT".data,
      .num 5, .undef, .num 1, .undef, .undef⟩
    ⟨.str "a".data, .str "b".data, .num 1, .str "DNT".data,
      .undef, .num 5, .num 1, .undef, .undef⟩
    rfl rfl rfl rfl (by decide) rfl
  exact ⟨h.1, (hashTransaction_signable_fields _ _ rfl rfl rfl rfl rfl rfl).2
    (fun _ _ => "sig".data) "ab".data⟩

/-! ## C9: the word-index distribution of generateMnemonic -/

/-- Closed form for how many values below N reduce to i modulo 234. -/
theorem card_range_filter_mod234 (i : Nat) (hi : i < 234) (N : Nat) :
    ((Finset.range N).filter fun w => w % 234 = i).card
      = N / 234 + if i < N % 234 then 1 else 0 := by
  induction N with
  | zero => simp
  | succ n ih =>
      rw [Finset.range_succ, Finset.filter_insert]
      by_cases h : n % 234 = i
      · rw [if_pos h, Finset.card_insert_of_not_mem (by simp), ih]
        by_cases h1 : i < n % 234 <;> by_cases h2 : i < (n + 1) % 234 <;>
          simp only [h1, h2, if_true, if_false] <;> omega
      · rw [if_neg h, ih]
        by_cases h1 : i < n % 234 <;> by_cases h2 : i < (n + 1) % 234 <;>
          simp only [h1, h2, if_true, if_false] <;> omega

/-- Counterexample for C9: the mapping from a uniform 32-bit draw to a
word index is not uniform: index 0 has 18354562 preimages while index 233
has 18354561, because 2^32 = 234 * 18354561 + 22 and the word list holds
234 entries, so reduction modulo the list length overweights the first 22
indices. -/
theorem generateMnemonic_not_uniform :
    preimageCount 0 = 18354562 ∧ preimageCount 233 = 18354561 ∧
    preimageCount 0 ≠ preimageCount 233 := by
  have hlen : WORDLIST.length = 234 := rfl
  have h0 := card_range_filter_mod234 0 (by norm_num) (2 ^ 32)
  have h233 := card_range_filter_mod234 233 (by norm_num) (2 ^ 32)
  have e0 : preimageCount 0 = 18354562 := by
    unfold preimageCount wordIndex
    rw [hlen, h0]
    norm_num
  have e233 : preimageCount 233 = 18354561 := by
    unfold preimageCount wordIndex
    rw [hlen, h233]
    norm_num
  exact ⟨e0, e233, by rw [e0, e233]; omega⟩

/-- C9 amended: each of the twelve independent draws is only near-uniform:
the 22 indices below 2^32 mod 234 = 22 have 18354561 + 1 preimages in the
32-bit domain and the remaining 212 indices have 18354561, a bias of one
part in about eighteen million per draw. -/
theorem generateMnemonic_preimage_counts (i : Nat) (hi : i < 234) :
    preimageCount i = if i < 22 then 18354562 else 18354561 := by
  have hlen : WORDLIST.length = 234 := rfl
  unfold preimageCount wordIndex
  rw [hlen, card_range_filter_mod234 i hi (2 ^ 32)]
  have h32 : (2 : Nat) ^ 32 / 234 = 18354561 := by norm_num
  have h32m : (2 : Nat) ^ 32 % 234 = 22 := by norm_num
  rw [h32, h32m]
  split_ifs <;> omega

/-- Witness for C9: the amended count at the first unbiased index. -/
theorem generateMnemonic_preimage_counts_witness :
    preimageCount 22 = 18354561 := by
  have h := generateMnemonic_preimage_counts 22 (by norm_num)
  simpa using h

/-! ## C6: the fixed import vector -/

/-- Counterexample for C6: the private key string quoted by the claim has
only 63 hexadecimal characters (the repository documentation carries a
trailing d this string lacks), so importWallet rejects it with the
InvalidKeyFormat error instead of accepting it as a 64-hex-character key. -/
theorem importWallet_spec_key_rejected :
    importWallet "f1b07e32f1f1bdaf5efa886e6511c91e187138905b3f96600304d8535fbefa6".data
      = Except.error "Invalid private key format. Must be 64 hexadecimal characters.".data := by
  decide

set_option maxRecDepth 1000000 in
set_option maxHeartbeats 4000000 in
/-- The secp256k1 step of the fixed vector: the documented 64-hex key
derives the documented compressed public key. -/
theorem fixed_vector_publicKey :
    getPublicKeyFromPrivate
      "f1b07e32f1f1bdaf5efa886e6511c91e187138905b3f96600304d8535fbefa6d".data
      = "02ccb34578b0edf3fa4a7cb488a969fd6e36ea3744dd5458b307f95b125cc57fe6".data := by
  decide

set_option maxRecDepth 100000 in
set_option maxHeartbeats 1000000 in
/-- The hashing and Base58Check step of the fixed vector. -/
theorem fixed_vector_address :
    publicKeyToAddress
      "02ccb34578b0edf3fa4a7cb488a969fd6e36ea3744dd5458b307f95b125cc57fe6".data
      = some "DFSVTrK1N53SeFiKKXRUVKCZKRvmA2xzoU".data := by
  decide

/-- C6 amended: restoring the trailing d documented in the repository
gives a 64-hex-character key that importWallet accepts, and the full
derivation pipeline (secp256k1 public key, SHA-256 and RIPEMD-160 hashing,
Base58Check encoding) yields exactly the documented address. -/
theorem importWallet_fixed_vector :
    importWallet
      "f1b07e32f1f1bdaf5efa886e6511c91e187138905b3f96600304d8535fbefa6d".data
      = Except.ok
        ⟨"f1b07e32f1f1bdaf5efa886e6511c91e187138905b3f96600304d8535fbefa6d".data,
         "02ccb34578b0edf3fa4a7cb488a969fd6e36ea3744dd5458b307f95b125cc57fe6".data,
         "DFSVTrK1N53SeFiKKXRUVKCZKRvmA2xzoU".data⟩ := by
  unfold importWallet
  rw [if_pos (show _ ∧ _ from by refine ⟨by decide, by decide⟩)]
  rw [fixed_vector_publicKey]
  dsimp only
  rw [fixed_vector_address]
  dsimp only
  decide

/-! ## Base58 correctness development -/

/-- Hex digit characters decode back to their values. -/
theorem hexDigitToNat_natToHexDigit : ∀ d < 16, hexDigitToNat (natToHexDigit d) = some d := by
  decide

/-- Alphabet characters decode back to their digit values. -/
theorem indexOf_b58Char : ∀ d < 58, ALPHABET.indexOf (b58Char d) = d := by
  decide

/-- Positive digits do not map to the alphabet zero. -/
theorem b58Char_ne_zeroChar : ∀ d < 58, 0 < d → b58Char d ≠ b58Char 0 := by
  decide

/-- The fuel-bounded hex expansion computes the reversed base-16 digits. -/
theorem natToHexAux_eq_digits :
    ∀ (f n : Nat), n < f → natToHexAux f n = ((Nat.digits 16 n).map natToHexDigit).reverse := by
  intro f
  induction f with
  | zero => intro n h; omega
  | succ f ih =>
      intro n h
      by_cases hn : n = 0
      · subst hn; simp [natToHexAux]
      · rw [natToHexAux, if_neg hn,
          ih (n / 16) (by have := Nat.div_lt_self (Nat.pos_of_ne_zero hn) (by norm_num : 1 < 16); omega),
          Nat.digits_def' (by norm_num : 1 < 16) (Nat.pos_of_ne_zero hn)]
        simp

/-- The fuel-bounded Base58 expansion computes the reversed base-58 digits. -/
theorem encode58Aux_eq_digits :
    ∀ (f n : Nat), n < f → encode58Aux f n = ((Nat.digits 58 n).map b58Char).reverse := by
  intro f
  induction f with
  | zero => intro n h; omega
  | succ f ih =>
      intro n h
      by_cases hn : n = 0
      · subst hn; simp [encode58Aux]
      · rw [encode58Aux, if_neg hn,
          ih (n / 58) (by have := Nat.div_lt_self (Nat.pos_of_ne_zero hn) (by norm_num : 1 < 58); omega),
          Nat.digits_def' (by norm_num : 1 < 58) (Nat.pos_of_ne_zero hn)]
        simp

/-- A big-endian digit fold is position-weighted ofDigits. -/
theorem foldl_mul_add (b : Nat) (l : List Nat) (a : Nat) :
    l.reverse.foldl (fun acc d => b * acc + d) a = a * b ^ l.length + Nat.ofDigits b l := by
  induction l generalizing a with
  | nil => simp [Nat.ofDigits]
  | cons d l ih =>
      rw [List.reverse_cons, List.foldl_append]
      simp only [List.foldl_cons, List.foldl_nil, ih, Nat.ofDigits_cons, List.length_cons]
      ring

/-- The Option fold of hexToNat equals the plain fold when every character
is a hex digit. -/
theorem hexToNat_fold (s : List Char) (a : Nat)
    (h : ∀ c ∈ s, (hexDigitToNat c).isSome) :
    s.foldl (fun acc c => acc.bind fun x => (hexDigitToNat c).map fun d => 16 * x + d)
      (some a)
      = some (s.foldl (fun x c => 16 * x + (hexDigitToNat c).getD 0) a) := by
  induction s generalizing a with
  | nil => rfl
  | cons c s ih =>
      obtain ⟨d, hd⟩ := Option.isSome_iff_exists.mp (h c (by simp))
      simp only [List.foldl_cons, hd, Option.some_bind, Option.map_some, Option.getD_some]
      exact ih (16 * a + d) (fun x hx => h x (List.mem_cons_of_mem _ hx))

/-- The Option fold of decode58Num equals the plain fold when every
character is in the alphabet. -/
theorem decode58Num_fold (s : List Char) (a : Nat)
    (h : ∀ c ∈ s, ALPHABET.indexOf c < 58) :
    s.foldl
      (fun acc c => acc.bind fun x =>
        let d := ALPHABET.indexOf c
        if d < 58 then some (58 * x + d) else none)
      (some a)
      = some (s.foldl (fun x c => 58 * x + ALPHABET.indexOf c) a) := by
  induction s generalizing a with
  | nil => rfl
  | cons c s ih =>
      simp only [List.foldl_cons, Option.some_bind, if_pos (h c (by simp))]
      exact ih (58 * a + ALPHABET.indexOf c) (fun x hx => h x (List.mem_cons_of_mem _ hx))

/-- Folding the hex characters of a byte list accumulates in base 256. -/
theorem fold_hex_pairs (bs : List Nat) (a : Nat) (h : ∀ b ∈ bs, b < 256) :
    (bytesToHex bs).foldl (fun x c => 16 * x + (hexDigitToNat c).getD 0) a
      = bs.foldl (fun x b => 256 * x + b) a := by
  induction bs generalizing a with
  | nil => rfl
  | cons b bs ih =>
      have hb : b < 256 := h b (by simp)
      have h1 : hexDigitToNat (natToHexDigit (b / 16)) = some (b / 16) :=
        hexDigitToNat_natToHexDigit (b / 16) (by omega)
      have h2 : hexDigitToNat (natToHexDigit (b % 16)) = some (b % 16) :=
        hexDigitToNat_natToHexDigit (b % 16) (by omega)
      simp only [bytesToHex, List.flatMap_cons, List.cons_append, List.nil_append,
        List.foldl_cons, h1, h2, Option.getD_some]
      rw [show 16 * (16 * a + b / 16) + b % 16 = 256 * a + b by omega]
      have := ih (256 * a + b) (fun x hx => h x (List.mem_cons_of_mem _ hx))
      simpa [bytesToHex] using this

/-- Every character bytesToHex produces is a hex digit. -/
theorem bytesToHex_valid (bs : List Nat) (h : ∀ b ∈ bs, b < 256) :
    ∀ c ∈ bytesToHex bs, (hexDigitToNat c).isSome := by
  intro c hc
  simp only [bytesToHex, List.mem_flatMap] at hc
  obtain ⟨b, hb, hcb⟩ := hc
  have hblt := h b hb
  simp only [List.mem_cons, List.not_mem_nil, or_false] at hcb
  rcases hcb with h1 | h1
  · rw [h1, hexDigitToNat_natToHexDigit (b / 16) (by omega)]; rfl
  · rw [h1, hexDigitToNat_natToHexDigit (b % 16) (by omega)]; rfl

/-- A plain big-endian byte fold is ofDigits of the reversed list. -/
theorem fold_bytes_val (bs : List Nat) :
    bs.foldl (fun x b => 256 * x + b) 0 = Nat.ofDigits 256 bs.reverse := by
  have := foldl_mul_add 256 bs.reverse 0
  simpa using this

/-- hexToNat of the hex rendering of a nonempty byte list is its
big-endian value. -/
theorem hexToNat_bytesToHex (bs : List Nat) (hne : bs ≠ [])
    (h : ∀ b ∈ bs, b < 256) :
    hexToNat (bytesToHex bs) = some (Nat.ofDigits 256 bs.reverse) := by
  have hlen : bytesToHex bs ≠ [] := by
    cases bs with
    | nil => exact absurd rfl hne
    | cons b bs => simp [bytesToHex]
  rw [hexToNat, if_neg (by simpa [List.isEmpty_iff] using hlen),
    hexToNat_fold _ _ (bytesToHex_valid bs h), fold_hex_pairs bs 0 h, fold_bytes_val]

/-- hexToBytes distributes over an append at an even boundary. -/
theorem hexToBytes_append : ∀ (xs ys : List Char), xs.length % 2 = 0 →
    hexToBytes (xs ++ ys) = hexToBytes xs ++ hexToBytes ys
  | [], _, _ => rfl
  | [c], _, h => by simp at h
  | c1 :: c2 :: rest, ys, h => by
      simp only [List.cons_append, hexToBytes, List.append_eq]
      rw [hexToBytes_append rest ys (by simp only [List.length_cons] at h; omega)]

/-- The hex rendering of a value of at least 256 peels two digits. -/
theorem natToHex_ge256 (n : Nat) (h : 256 ≤ n) :
    natToHex n = natToHex (n / 256)
      ++ [natToHexDigit (n / 16 % 16), natToHexDigit (n % 16)] := by
  have hn : n ≠ 0 := by omega
  have hq : n / 256 ≠ 0 := by omega
  rw [natToHex, if_neg hn, natToHex, if_neg hq,
    natToHexAux_eq_digits _ n (Nat.lt_succ_self n),
    natToHexAux_eq_digits _ (n / 256) (Nat.lt_succ_self _),
    Nat.digits_def' (by norm_num : 1 < 16) (by omega : 0 < n),
    Nat.digits_def' (by norm_num : 1 < 16) (by omega : 0 < n / 16),
    Nat.div_div_eq_div_mul]
  simp

/-- The decode-side byte reconstruction: rendering a positive value as hex
padded to even length and grouping pairs yields its reversed base-256
digits. -/
theorem natToHex_pad_bytes (n : Nat) (hn : n ≠ 0) :
    hexToBytes
      (if (natToHex n).length % 2 = 1 then Char.ofNat 48 :: natToHex n else natToHex n)
      = (Nat.digits 256 n).reverse := by
  induction n using Nat.strong_induction_on with
  | _ n ih =>
      by_cases h256 : n < 256
      · have hd256 : Nat.digits 256 n = [n] := by
          rw [Nat.digits_def' (by norm_num : 1 < 256) (by omega : 0 < n)]
          simp [Nat.mod_eq_of_lt h256, Nat.div_eq_of_lt h256]
        by_cases h16 : n < 16
        · have hd : natToHex n = [natToHexDigit n] := by
            rw [natToHex, if_neg hn, natToHexAux_eq_digits _ n (Nat.lt_succ_self n),
              Nat.digits_def' (by norm_num : 1 < 16) (by omega : 0 < n)]
            simp [Nat.mod_eq_of_lt h16, Nat.div_eq_of_lt h16]
          rw [hd]
          simp only [List.length_cons, List.length_nil]
          rw [if_pos (by norm_num)]
          have h0 : hexDigitToNat (Char.ofNat 48) = some 0 :=
            hexDigitToNat_natToHexDigit 0 (by norm_num)
          have hc : hexDigitToNat (natToHexDigit n) = some n :=
            hexDigitToNat_natToHexDigit n h16
          simp [hexToBytes, h0, hc, hd256]
        · have hd : natToHex n = [natToHexDigit (n / 16), natToHexDigit (n % 16)] := by
            rw [natToHex, if_neg hn, natToHexAux_eq_digits _ n (Nat.lt_succ_self n),
              Nat.digits_def' (by norm_num : 1 < 16) (by omega : 0 < n),
              Nat.digits_def' (by norm_num : 1 < 16) (by omega : 0 < n / 16)]
            have : n / 16 / 16 = 0 := by omega
            rw [this]
            simp [Nat.mod_eq_of_lt (by omega : n / 16 < 16)]
          rw [hd]
          simp only [List.length_cons, List.length_nil]
          rw [if_neg (by norm_num)]
          have h1 : hexDigitToNat (natToHexDigit (n / 16)) = some (n / 16) :=
            hexDigitToNat_natToHexDigit (n / 16) (by omega)
          have h2 : hexDigitToNat (natToHexDigit (n % 16)) = some (n % 16) :=
            hexDigitToNat_natToHexDigit (n % 16) (by omega)
          simp [hexToBytes, h1, h2, hd256]
          omega
      · rw [natToHex_ge256 n (by omega)]
        have hiq : n / 256 ≠ 0 := by omega
        have hrec := ih (n / 256) (by omega) hiq
        have hlen : (natToHex (n / 256)
            ++ [natToHexDigit (n / 16 % 16), natToHexDigit (n % 16)]).length % 2
            = (natToHex (n / 256)).length % 2 := by
          simp [List.length_append]
        have h1 : hexDigitToNat (natToHexDigit (n / 16 % 16)) = some (n / 16 % 16) :=
          hexDigitToNat_natToHexDigit (n / 16 % 16) (by omega)
        have h2 : hexDigitToNat (natToHexDigit (n % 16)) = some (n % 16) :=
          hexDigitToNat_natToHexDigit (n % 16) (by omega)
        have htail : hexToBytes [natToHexDigit (n / 16 % 16), natToHexDigit (n % 16)]
            = [n % 256] := by
          simp [hexToBytes, h1, h2]
          omega
        rw [Nat.digits_def' (by norm_num : 1 < 256) (by omega : 0 < n), List.reverse_cons,
          ← hrec]
        by_cases hpar : (natToHex (n / 256)).length % 2 = 1
        · rw [hlen] at *
          rw [if_pos (by omega), if_pos hpar]
          rw [show Char.ofNat 48 :: (natToHex (n / 256)
              ++ [natToHexDigit (n / 16 % 16), natToHexDigit (n % 16)])
            = (Char.ofNat 48 :: natToHex (n / 256))
              ++ [natToHexDigit (n / 16 % 16), natToHexDigit (n % 16)] from rfl]
          rw [hexToBytes_append _ _ (by simp; omega), htail]
        · rw [hlen] at *
          rw [if_neg (by omega), if_neg hpar]
          rw [hexToBytes_append _ _ (by omega), htail]

/-- encode58Aux of zero is empty at any fuel. -/
theorem encode58Aux_zero : ∀ f, encode58Aux f 0 = []
  | 0 => rfl
  | f + 1 => by simp [encode58Aux]

/-- takeWhile over a satisfying replicate prefix followed by a failing
head. -/
theorem takeWhile_replicate_append {α : Type} (p : α → Bool) (a : α) (z : Nat)
    (rest : List α) (hp : p a) (hrest : rest.takeWhile p = []) :
    (List.replicate z a ++ rest).takeWhile p = List.replicate z a := by
  induction z with
  | zero => simpa using hrest
  | succ z ih =>
      rw [List.replicate_succ, List.cons_append, List.takeWhile_cons_of_pos hp, ih]

/-- Mapping a constant function is a replicate of the length. -/
theorem map_const_replicate {α β : Type} (l : List α) (c : β) :
    l.map (fun _ => c) = List.replicate l.length c := by
  induction l with
  | nil => rfl
  | cons x t ih => simp [List.replicate_succ, ih]

/-- A list whose head fails the predicate has an empty takeWhile. -/
theorem takeWhile_eq_nil_of_head (p : Char → Bool) (l : List Char) (a : Char)
    (hh : l.head? = some a) (ha : ¬ p a) : l.takeWhile p = [] := by
  cases l with
  | nil => rfl
  | cons c t =>
      cases hh
      exact List.takeWhile_cons_of_neg ha

/-- The head of a dropWhile result fails the predicate. -/
theorem dropWhile_head_not (p : Nat → Bool) :
    ∀ (l : List Nat) (a : Nat), (l.dropWhile p).head? = some a → ¬ p a := by
  intro l
  induction l with
  | nil => intro a h; cases h
  | cons c t ih =>
      intro a h
      by_cases hc : p c
      · rw [List.dropWhile_cons_of_pos hc] at h
        exact ih a h
      · rw [List.dropWhile_cons_of_neg hc] at h
        cases h
        exact hc

/-- ofDigits is positive when some digit is nonzero. -/
theorem ofDigits_pos_of_mem {l : List Nat} {b : Nat} (hb : b ∈ l) (hbz : b ≠ 0) :
    0 < Nat.ofDigits 256 l := by
  induction l with
  | nil => cases hb
  | cons d t ih =>
      rw [Nat.ofDigits_cons]
      rcases List.mem_cons.mp hb with rfl | hmem
      · omega
      · have := ih hmem
        omega

/-- ofDigits of an all-zero list vanishes. -/
theorem ofDigits_replicate_zero (z : Nat) :
    Nat.ofDigits 256 (List.replicate z 0) = 0 := by
  induction z with
  | zero => rfl
  | succ z ih => rw [List.replicate_succ, Nat.ofDigits_cons, ih]

/-- The alphabet-digit fold over leading alphabet zeros stays put. -/
theorem fold_zeroChar_replicate (z : Nat) :
    (List.replicate z (b58Char 0)).foldl (fun x c => 58 * x + ALPHABET.indexOf c) 0
      = 0 := by
  induction z with
  | zero => rfl
  | succ z ih =>
      rw [List.replicate_succ, List.foldl_cons, indexOf_b58Char 0 (by norm_num)]
      simpa using ih

/-- Decoding the Base58 encoding of a byte list with a nonzero byte
recovers the bytes exactly. -/
theorem base58Decode_base58Encode (bs : List Nat) (h : ∀ b ∈ bs, b < 256)
    (hnz : ∃ b ∈ bs, b ≠ 0) :
    ∀ e, base58Encode bs = some e → base58Decode e = some bs := by
  obtain ⟨b0, hb0m, hb0z⟩ := hnz
  have hbne : bs ≠ [] := by rintro rfl; cases hb0m
  have hn_pos : 0 < Nat.ofDigits 256 bs.reverse :=
    ofDigits_pos_of_mem (List.mem_reverse.mpr hb0m) hb0z
  set n := Nat.ofDigits 256 bs.reverse with hn_def
  have hn0 : n ≠ 0 := by omega
  have henc : base58Encode bs
      = some ((bs.takeWhile (· = 0)).map (fun _ => b58Char 0) ++ encode58Aux (n + 1) n) := by
    rw [base58Encode, hexToNat_bytesToHex bs hbne h]
    rfl
  intro e he
  rw [henc] at he
  cases he
  set z := (bs.takeWhile (· = 0)).length with hz_def
  have hmapz : (bs.takeWhile (· = 0)).map (fun _ => b58Char 0)
      = List.replicate z (b58Char 0) := by
    rw [hz_def]
    exact map_const_replicate _ _
  have hdig : encode58Aux (n + 1) n = ((Nat.digits 58 n).map b58Char).reverse :=
    encode58Aux_eq_digits _ n (Nat.lt_succ_self n)
  have hD_ne : Nat.digits 58 n ≠ [] := Nat.digits_ne_nil_iff_ne_zero.mpr hn0
  have hlast_ne : (Nat.digits 58 n).getLast hD_ne ≠ 0 :=
    Nat.getLast_digit_ne_zero 58 hn0
  have hlast_lt : (Nat.digits 58 n).getLast hD_ne < 58 :=
    Nat.digits_lt_base (by norm_num) (List.getLast_mem _)
  have hhead : (((Nat.digits 58 n).map b58Char).reverse).head?
      = some (b58Char ((Nat.digits 58 n).getLast hD_ne)) := by
    rw [List.head?_reverse, List.getLast?_map, List.getLast?_eq_getLast _ hD_ne]
    rfl
  have hhead_ne : b58Char ((Nat.digits 58 n).getLast hD_ne) ≠ b58Char 0 :=
    b58Char_ne_zeroChar _ hlast_lt (Nat.pos_of_ne_zero hlast_ne)
  have htw : ((bs.takeWhile (· = 0)).map (fun _ => b58Char 0)
        ++ encode58Aux (n + 1) n).takeWhile (· = b58Char 0)
      = List.replicate z (b58Char 0) := by
    rw [hmapz, hdig]
    refine takeWhile_replicate_append _ _ _ _ (by simp) ?_
    refine takeWhile_eq_nil_of_head _ _ _ hhead ?_
    simpa using hhead_ne
  have hvalid : ∀ c ∈ (List.replicate z (b58Char 0)
      ++ ((Nat.digits 58 n).map b58Char).reverse), ALPHABET.indexOf c < 58 := by
    intro c hc
    rcases List.mem_append.mp hc with hc | hc
    · rw [List.eq_of_mem_replicate hc, indexOf_b58Char 0 (by norm_num)]
      norm_num
    · rw [List.mem_reverse] at hc
      obtain ⟨d, hd, rfl⟩ := List.mem_map.mp hc
      rw [indexOf_b58Char d (Nat.digits_lt_base (by norm_num) hd)]
      exact Nat.digits_lt_base (by norm_num) hd
  have hfold : (List.replicate z (b58Char 0)
        ++ ((Nat.digits 58 n).map b58Char).reverse).foldl
        (fun x c => 58 * x + ALPHABET.indexOf c) 0 = n := by
    rw [List.foldl_append, fold_zeroChar_replicate, ← List.map_reverse, List.foldl_map,
      List.foldl_ext _ (fun x d => 58 * x + d) 0 (fun a d hd => by
        rw [indexOf_b58Char d (Nat.digits_lt_base (by norm_num)
          (List.mem_reverse.mp hd))]),
      foldl_mul_add 58 (Nat.digits 58 n) 0]
    simp [Nat.ofDigits_digits]
  have hnum : decode58Num ((bs.takeWhile (· = 0)).map (fun _ => b58Char 0)
      ++ encode58Aux (n + 1) n) = some n := by
    rw [decode58Num, hmapz, hdig, decode58Num_fold _ 0 hvalid, hfold]
  set core := bs.dropWhile (· = 0) with hcore_def
  have hsplit : bs.takeWhile (· = 0) ++ core = bs := by
    rw [hcore_def]
    exact List.takeWhile_append_dropWhile _ _
  have htw_zeros : bs.takeWhile (· = 0) = List.replicate z 0 := by
    rw [hz_def]
    refine List.eq_replicate_of_mem ?_
    intro b hb
    have := List.mem_takeWhile_imp hb
    simpa using this
  have hcore_ne : core ≠ [] := by
    intro hc
    have hbsz : bs = List.replicate z 0 := by
      rw [← hsplit, hc, htw_zeros]
      simp
    rw [hbsz] at hb0m
    exact hb0z (List.eq_of_mem_replicate hb0m)
  have hcore_head : ∀ a, core.head? = some a → a ≠ 0 := by
    intro a ha
    rw [hcore_def] at ha
    have := dropWhile_head_not _ bs a ha
    simpa using this
  have hval_eq : n = Nat.ofDigits 256 core.reverse := by
    rw [hn_def]
    conv_lhs => rw [← hsplit]
    rw [htw_zeros, List.reverse_append, List.reverse_replicate, Nat.ofDigits_append,
      ofDigits_replicate_zero]
    ring
  have hdigits256 : Nat.digits 256 n = core.reverse := by
    rw [hval_eq]
    refine Nat.digits_ofDigits 256 (by norm_num) core.reverse ?_ ?_
    · intro l hl
      exact h l ((List.dropWhile_sublist _).subset (List.mem_reverse.mp hl))
    · intro hne2
      obtain ⟨a, ha⟩ : ∃ a, core.head? = some a := by
        cases hcc : core with
        | nil => exact absurd hcc hcore_ne
        | cons x t => exact ⟨x, rfl⟩
      have h1 : core.reverse.getLast? = some (core.reverse.getLast hne2) :=
        List.getLast?_eq_getLast _ hne2
      have h2 : core.reverse.getLast? = core.head? := by
        rw [← List.head?_reverse, List.reverse_reverse]
      have h3 : core.reverse.getLast hne2 = a := by
        rw [h2, ha] at h1
        exact (Option.some.inj h1).symm
      rw [h3]
      exact hcore_head a ha
  rw [base58Decode, hnum]
  simp only [Option.map_some']
  rw [natToHex_pad_bytes n hn0, hdigits256, List.reverse_reverse, htw]
  rw [show (List.replicate z (b58Char 0)).map (fun _ => (0 : Nat))
    = List.replicate z 0 by rw [map_const_replicate, List.length_replicate]]
  rw [← htw_zeros, hsplit]

/-- takeWhile over a replicate of satisfying elements is the whole list. -/
theorem takeWhile_replicate_self {α : Type} (p : α → Bool) (a : α) (k : Nat)
    (hp : p a) : (List.replicate k a).takeWhile p = List.replicate k a := by
  have := takeWhile_replicate_append p a k [] hp rfl
  simpa using this

/-- Encoding an all-zero byte array yields only alphabet zeros. -/
theorem base58Encode_replicate_zero (k : Nat) :
    base58Encode (List.replicate (k + 1) 0)
      = some (List.replicate (k + 1) (b58Char 0)) := by
  have hne : List.replicate (k + 1) (0 : Nat) ≠ [] := by
    intro hc
    have := congrArg List.length hc
    simp at this
  have hval : hexToNat (bytesToHex (List.replicate (k + 1) 0)) = some 0 := by
    rw [hexToNat_bytesToHex (List.replicate (k + 1) 0) hne
        (fun b hb => by rw [List.eq_of_mem_replicate hb]; norm_num),
      List.reverse_replicate, ofDigits_replicate_zero]
  rw [base58Encode, hval]
  simp only [Option.map_some']
  rw [encode58Aux_zero, takeWhile_replicate_self _ _ _ (by simp),
    map_const_replicate, List.length_replicate, List.append_nil]

/-- Decoding a string of alphabet zeros appends one extra zero byte: the
numeric branch renders the zero value as the hex 00 and contributes a
spurious zero byte. -/
theorem base58Decode_replicate_oneChar (k : Nat) :
    base58Decode (List.replicate k (b58Char 0))
      = some (List.replicate (k + 1) 0) := by
  have hvalid : ∀ c ∈ List.replicate k (b58Char 0), ALPHABET.indexOf c < 58 := by
    intro c hc
    rw [List.eq_of_mem_replicate hc, indexOf_b58Char 0 (by norm_num)]
    norm_num
  have hnum : decode58Num (List.replicate k (b58Char 0)) = some 0 := by
    rw [decode58Num, decode58Num_fold _ 0 hvalid, fold_zeroChar_replicate]
  rw [base58Decode, hnum]
  simp only [Option.map_some']
  have hbytes : hexToBytes (if (natToHex 0).length % 2 = 1
      then Char.ofNat 48 :: natToHex 0 else natToHex 0) = [0] := by decide
  rw [hbytes, takeWhile_replicate_self _ _ _ (by simp),
    map_const_replicate, List.length_replicate, ← List.replicate_succ']

/-! ## C10: the Base58 codec round-trip and its degenerate cases -/

/-- Counterexample for C10: on the empty array the encoder does not
produce a value whose decode has an extra zero byte; it throws (BigInt of
the bare string 0x raises a SyntaxError), modelled as none. -/
theorem base58Encode_nil_throws : base58Encode ([] : List Nat) = none := rfl

/-- C10 amended: the codec round-trips exactly on byte arrays containing a
nonzero byte; a nonempty all-zero array decodes back with one extra zero
byte contributed by the numeric branch; and on the empty array the encoder
throws (none) rather than round-tripping with an extra byte. Addresses are
never affected: their first byte is the version 0x1E. -/
theorem base58_roundtrip_characterization :
    (∀ bs : List Nat, (∀ b ∈ bs, b < 256) → (∃ b ∈ bs, b ≠ 0) →
      ∃ e, base58Encode bs = some e ∧ base58Decode e = some bs) ∧
    (∀ k : Nat,
      base58Encode (List.replicate (k + 1) 0)
        = some (List.replicate (k + 1) (b58Char 0)) ∧
      base58Decode (List.replicate (k + 1) (b58Char 0))
        = some (List.replicate (k + 2) 0)) ∧
    base58Encode ([] : List Nat) = none := by
  refine ⟨fun bs h hnz => ?_, fun k => ⟨base58Encode_replicate_zero k,
    base58Decode_replicate_oneChar (k + 1)⟩, rfl⟩
  obtain ⟨b0, hb0m, hb0z⟩ := hnz
  have hbne : bs ≠ [] := by rintro rfl; cases hb0m
  obtain ⟨v, hv⟩ : ∃ v, hexToNat (bytesToHex bs) = some v :=
    ⟨_, hexToNat_bytesToHex bs hbne h⟩
  have henc : base58Encode bs
      = some ((bs.takeWhile (· = 0)).map (fun _ => b58Char 0) ++ encode58Aux (v + 1) v) := by
    rw [base58Encode, hv]
    simp only [Option.map_some']
  exact ⟨_, henc, base58Decode_base58Encode bs h ⟨b0, hb0m, hb0z⟩ _ henc⟩

/-- Witness for C10: a concrete three-byte array with a leading zero
round-trips, and the two-byte all-zero array gains one zero byte. -/
theorem base58_roundtrip_characterization_witness :
    base58Encode [0, 30, 7] = some "13HY".data ∧
    base58Decode "13HY".data = some [0, 30, 7] ∧
    base58Encode [0, 0] = some "11".data ∧
    base58Decode "11".data = some [0, 0, 0] := by
  obtain ⟨e, h1, h2⟩ :=
    base58_roundtrip_characterization.1 [0, 30, 7] (by decide) (by decide)
  have he : e = "13HY".data := by
    rw [show base58Encode [0, 30, 7] = some "13HY".data from by decide] at h1
    exact (Option.some.inj h1).symm
  rw [he] at h1 h2
  obtain ⟨h3, h4⟩ := base58_roundtrip_characterization.2.1 1
  refine ⟨h1, h2, ?_, ?_⟩
  · rw [show List.replicate 2 (0 : Nat) = [0, 0] from rfl] at h3
    rw [h3]
    rfl
  · rw [show List.replicate 2 (b58Char 0) = "11".data from by decide] at h4
    rw [h4]
    rfl

/-! ## Shape lemmas for the hash outputs and list surgery helpers -/

/-- beBytes always produces its requested width. -/
theorem beBytes_length : ∀ k n, (Sha256.beBytes k n).length = k
  | 0, _ => rfl
  | k + 1, n => by simp [Sha256.beBytes, beBytes_length k]

/-- beBytes produces bytes. -/
theorem beBytes_lt : ∀ k n, ∀ b ∈ Sha256.beBytes k n, b < 256
  | 0, _, b, hb => by cases hb
  | k + 1, n, b, hb => by
      simp only [Sha256.beBytes, List.mem_append, List.mem_singleton] at hb
      rcases hb with hb | hb
      · exact beBytes_lt k (n / 256) b hb
      · omega

/-- leBytes always produces its requested width. -/
theorem leBytes_length : ∀ k n, (Ripemd160.leBytes k n).length = k
  | 0, _ => rfl
  | k + 1, n => by simp [Ripemd160.leBytes, leBytes_length k]

/-- leBytes produces bytes. -/
theorem leBytes_lt : ∀ k n, ∀ b ∈ Ripemd160.leBytes k n, b < 256
  | 0, _, b, hb => by cases hb
  | k + 1, n, b, hb => by
      simp only [Ripemd160.leBytes, List.mem_cons] at hb
      rcases hb with hb | hb
      · omega
      · exact leBytes_lt k (n / 256) b hb

/-- SHA-256 always returns 32 bytes. -/
theorem sha256Sync_length (msg : List Nat) : (sha256Sync msg).length = 32 := by
  unfold sha256Sync Sha256.sha256
  simp [beBytes_length]

/-- SHA-256 returns byte values. -/
theorem sha256Sync_lt (msg : List Nat) : ∀ b ∈ sha256Sync msg, b < 256 := by
  intro b hb
  unfold sha256Sync Sha256.sha256 at hb
  simp only [List.mem_flatMap] at hb
  obtain ⟨w, _, hbw⟩ := hb
  exact beBytes_lt 4 w b hbw

/-- RIPEMD-160 always returns 20 bytes. -/
theorem ripemd160_length (msg : List Nat) : (ripemd160 msg).length = 20 := by
  unfold ripemd160 Ripemd160.ripemd160
  simp [leBytes_length]

/-- RIPEMD-160 returns byte values. -/
theorem ripemd160_lt (msg : List Nat) : ∀ b ∈ ripemd160 msg, b < 256 := by
  intro b hb
  unfold ripemd160 Ripemd160.ripemd160 at hb
  simp only [List.mem_flatMap] at hb
  obtain ⟨w, _, hbw⟩ := hb
  exact leBytes_lt 4 w b hbw

/-- Dropping past an earlier set leaves the suffix untouched. -/
theorem drop_set_of_lt (v : Nat) :
    ∀ (l : List Nat) (i n : Nat), i < n → (l.set i v).drop n = l.drop n := by
  intro l
  induction l with
  | nil => intro i n h; rfl
  | cons a t ih =>
      intro i n h
      cases i with
      | zero =>
          cases n with
          | zero => omega
          | succ n => rfl
      | succ i =>
          cases n with
          | zero => omega
          | succ n => exact ih i n (by omega)

/-- Taking before a later set leaves the prefix untouched. -/
theorem take_set_of_le (v : Nat) :
    ∀ (l : List Nat) (i n : Nat), n ≤ i → (l.set i v).take n = l.take n := by
  intro l
  induction l with
  | nil => intro i n h; rfl
  | cons a t ih =>
      intro i n h
      cases n with
      | zero => rfl
      | succ n =>
          cases i with
          | zero => omega
          | succ i => simpa using ih i n (by omega)

/-- The set element reads back. -/
theorem getD_set_self (v : Nat) :
    ∀ (l : List Nat) (i : Nat), i < l.length → (l.set i v).getD i 0 = v := by
  intro l
  induction l with
  | nil => intro i h; simp at h
  | cons a t ih =>
      intro i h
      cases i with
      | zero => rfl
      | succ i => simpa using ih i (by simpa using h)

/-- Members of a set list come from the list or are the new element. -/
theorem mem_set_cases (v : Nat) :
    ∀ (l : List Nat) (i : Nat) (b : Nat), b ∈ l.set i v → b ∈ l ∨ b = v := by
  intro l
  induction l with
  | nil => intro i b hb; cases hb
  | cons a t ih =>
      intro i b hb
      cases i with
      | zero =>
          rcases List.mem_cons.mp hb with rfl | hb
          · right; rfl
          · left; exact List.mem_cons_of_mem _ hb
      | succ i =>
          rcases List.mem_cons.mp hb with rfl | hb
          · left; exact List.mem_cons_self _ _
          · rcases ih i b hb with hb | hb
            · left; exact List.mem_cons_of_mem _ hb
            · right; exact hb

/-- Setting a genuinely different value changes the list. -/
theorem set_ne_of_getD (l : List Nat) (i v : Nat) (h : i < l.length)
    (hv : v ≠ l.getD i 0) : l.set i v ≠ l := by
  intro hc
  apply hv
  rw [← getD_set_self v l i h, hc]

/-- getD past an append prefix reads the suffix. -/
theorem getD_append_right (l1 l2 : List Nat) :
    ∀ j, (l1 ++ l2).getD (l1.length + j) 0 = l2.getD j 0 := by
  induction l1 with
  | nil => intro j; simp
  | cons a t ih =>
      intro j
      simp only [List.cons_append, List.length_cons]
      rw [show t.length + 1 + j = (t.length + j) + 1 from by omega, List.getD_cons_succ]
      exact ih j

/-- Setting past an append prefix sets in the suffix. -/
theorem set_append_right (l1 l2 : List Nat) (v : Nat) :
    ∀ j, (l1 ++ l2).set (l1.length + j) v = l1 ++ l2.set j v := by
  induction l1 with
  | nil => intro j; simp
  | cons a t ih =>
      intro j
      simp only [List.cons_append, List.length_cons]
      rw [show t.length + 1 + j = (t.length + j) + 1 from by omega]
      show a :: (t ++ l2).set (t.length + j) v = a :: (t ++ l2.set j v)
      rw [ih j]

/-- The leading Base58 digit of a value with a known digit count. -/
theorem encode58Aux_leading :
    ∀ (L n f : Nat), 58 ^ L ≤ n → n < 58 ^ (L + 1) → n < f →
      ∃ rest, encode58Aux f n = b58Char (n / 58 ^ L) :: rest := by
  intro L
  induction L with
  | zero =>
      intro n f h1 h2 hf
      simp only [pow_zero] at h1
      cases f with
      | zero => omega
      | succ f2 =>
          rw [encode58Aux, if_neg (by omega)]
          have hdiv : n / 58 = 0 := Nat.div_eq_of_lt (by simpa using h2)
          rw [hdiv, encode58Aux_zero]
          exact ⟨[], by simp [Nat.mod_eq_of_lt (show n < 58 by simpa using h2)]⟩
  | succ L ih =>
      intro n f h1 h2 hf
      have hn0 : n ≠ 0 := by
        have : 0 < 58 ^ (L + 1) := Nat.pos_pow_of_pos _ (by norm_num)
        omega
      cases f with
      | zero => omega
      | succ f2 =>
          rw [encode58Aux, if_neg hn0]
          have hq1 : 58 ^ L ≤ n / 58 := by
            rw [Nat.le_div_iff_mul_le (by norm_num : 0 < 58)]
            calc 58 ^ L * 58 = 58 ^ (L + 1) := by ring
              _ ≤ n := h1
          have hq2 : n / 58 < 58 ^ (L + 1) := by
            rw [Nat.div_lt_iff_lt_mul (by norm_num : 0 < 58)]
            calc n < 58 ^ (L + 1 + 1) := h2
              _ = 58 ^ (L + 1) * 58 := by ring
          have hq3 : n / 58 < f2 := by
            have hd : n / 58 < n := Nat.div_lt_self (by omega) (by norm_num)
            omega
          obtain ⟨rest, hr⟩ := ih (n / 58) f2 hq1 hq2 hq3
          rw [hr]
          refine ⟨rest ++ [b58Char (n % 58)], ?_⟩
          rw [List.cons_append]
          congr 2
          rw [Nat.div_div_eq_div_mul]
          congr 1
          ring

/-- addressBytes in cons form. -/
theorem addressBytes_cons (pk : List Char) :
    addressBytes pk
      = ADDRESS_VERSION :: (ripemd160 (sha256Sync (hexToBytes pk))
        ++ (sha256Sync (sha256Sync (ADDRESS_VERSION ::
            ripemd160 (sha256Sync (hexToBytes pk))))).take 4) := rfl

/-- addressBytes in append form. -/
theorem addressBytes_split (pk : List Char) :
    addressBytes pk
      = (ADDRESS_VERSION :: ripemd160 (sha256Sync (hexToBytes pk)))
        ++ (sha256Sync (sha256Sync (ADDRESS_VERSION ::
            ripemd160 (sha256Sync (hexToBytes pk))))).take 4 := rfl

/-- publicKeyToAddress is the Base58 encoding of addressBytes. -/
theorem publicKeyToAddress_eq (pk : List Char) :
    publicKeyToAddress pk = base58Encode (addressBytes pk) := rfl

/-- The versioned payload has 21 bytes. -/
theorem versionedPayload_length (pk : List Char) :
    (ADDRESS_VERSION :: ripemd160 (sha256Sync (hexToBytes pk))).length = 21 := by
  simp [ripemd160_length]

/-- addressBytes has 25 bytes. -/
theorem addressBytes_length (pk : List Char) : (addressBytes pk).length = 25 := by
  rw [addressBytes_split, List.length_append, versionedPayload_length,
    List.length_take, sha256Sync_length]
  omega

/-- addressBytes holds byte values. -/
theorem addressBytes_lt (pk : List Char) : ∀ b ∈ addressBytes pk, b < 256 := by
  intro b hb
  rw [addressBytes_split] at hb
  rcases List.mem_append.mp hb with hb | hb
  · rcases List.mem_cons.mp hb with rfl | hb
    · norm_num [ADDRESS_VERSION]
    · exact ripemd160_lt _ b hb
  · exact sha256Sync_lt _ b (List.take_subset _ _ hb)

/-- The prefix of addressBytes reads back as the versioned payload. -/
theorem addressBytes_take (pk : List Char) :
    (addressBytes pk).take 21
      = ADDRESS_VERSION :: ripemd160 (sha256Sync (hexToBytes pk)) := by
  rw [addressBytes_split,
    show (21 : Nat) = (ADDRESS_VERSION :: ripemd160 (sha256Sync (hexToBytes pk))).length
      from (versionedPayload_length pk).symm]
  exact List.take_left _ _

/-- The suffix of addressBytes reads back as the checksum. -/
theorem addressBytes_drop (pk : List Char) :
    (addressBytes pk).drop 21
      = (sha256Sync (sha256Sync (ADDRESS_VERSION ::
          ripemd160 (sha256Sync (hexToBytes pk))))).take 4 := by
  rw [addressBytes_split,
    show (21 : Nat) = (ADDRESS_VERSION :: ripemd160 (sha256Sync (hexToBytes pk))).length
      from (versionedPayload_length pk).symm]
  exact List.drop_left _ _

/-- The checksum of addressBytes is valid by construction. -/
theorem addressBytes_checksum (pk : List Char) :
    (addressBytes pk).drop 21
      = (sha256Sync (sha256Sync ((addressBytes pk).take 21))).take 4 := by
  rw [addressBytes_take, addressBytes_drop]

/-- The big-endian value of addressBytes lies in the version-0x1E band. -/
theorem addressBytes_val (pk : List Char) :
    30 * 2 ^ 192 ≤ Nat.ofDigits 256 (addressBytes pk).reverse ∧
      Nat.ofDigits 256 (addressBytes pk).reverse < 31 * 2 ^ 192 := by
  have htail_len : (ripemd160 (sha256Sync (hexToBytes pk))
      ++ (sha256Sync (sha256Sync (ADDRESS_VERSION ::
          ripemd160 (sha256Sync (hexToBytes pk))))).take 4).length = 24 := by
    rw [List.length_append, ripemd160_length, List.length_take, sha256Sync_length]
    omega
  have htail_lt : ∀ b ∈ (ripemd160 (sha256Sync (hexToBytes pk))
      ++ (sha256Sync (sha256Sync (ADDRESS_VERSION ::
          ripemd160 (sha256Sync (hexToBytes pk))))).take 4).reverse, b < 256 := by
    intro b hb
    rw [List.mem_reverse] at hb
    rcases List.mem_append.mp hb with hb | hb
    · exact ripemd160_lt _ b hb
    · exact sha256Sync_lt _ b (List.take_subset _ _ hb)
  have hbound : Nat.ofDigits 256 (ripemd160 (sha256Sync (hexToBytes pk))
      ++ (sha256Sync (sha256Sync (ADDRESS_VERSION ::
          ripemd160 (sha256Sync (hexToBytes pk))))).take 4).reverse < 256 ^ 24 := by
    have := Nat.ofDigits_lt_base_pow_length (by norm_num : 1 < 256) htail_lt
    rwa [List.length_reverse, htail_len] at this
  rw [addressBytes_cons, List.reverse_cons, Nat.ofDigits_append, List.length_reverse,
    htail_len]
  have hsing : Nat.ofDigits 256 [ADDRESS_VERSION] = 30 := by
    rw [Nat.ofDigits_cons, Nat.ofDigits_nil]
    norm_num [ADDRESS_VERSION]
  rw [hsing]
  have h2 : (256 : Nat) ^ 24 = 2 ^ 192 := by norm_num
  rw [h2] at hbound ⊢
  omega

/-! ## C3: derived addresses validate; mutations invalidate -/

/-- C3: for every public key hex string, the derived address validates,
starts with D, and Base58Check-decodes to exactly the 25 bytes
version 0x1E, RIPEMD160(SHA256(publicKey)), and the first four bytes of
the double-SHA-256 checksum of the payload. Mutating any one byte of the
decoded 25 bytes and re-encoding makes validateAddress false — except that
for a payload-byte mutation the double-SHA-256 checksum of the mutated
payload could in principle coincide with the stored checksum, an explicit
truncated-hash collision surfaced as the second disjunct (the claim takes
such collisions to be impossible, which is the standard Base58Check
assumption and cannot be decided inside the model). -/
theorem publicKeyToAddress_validates (publicKeyHex : List Char) :
    ∃ addr,
      publicKeyToAddress publicKeyHex = some addr ∧
      validateAddress addr = true ∧
      addr.head? = some (Char.ofNat 68) ∧
      base58Decode addr = some (addressBytes publicKeyHex) ∧
      addressBytes publicKeyHex
        = ADDRESS_VERSION :: ripemd160 (sha256Sync (hexToBytes publicKeyHex))
          ++ (sha256Sync (sha256Sync (ADDRESS_VERSION ::
              ripemd160 (sha256Sync (hexToBytes publicKeyHex))))).take 4 ∧
      (addressBytes publicKeyHex).length = 25 ∧
      (∀ i v s, i < 25 → v < 256 → v ≠ (addressBytes publicKeyHex).getD i 0 →
        base58Encode ((addressBytes publicKeyHex).set i v) = some s →
        validateAddress s = false ∨
          (1 ≤ i ∧ i ≤ 20 ∧
            (sha256Sync (sha256Sync (((addressBytes publicKeyHex).set i v).take 21))).take 4
              = (addressBytes publicKeyHex).drop 21)) := by
  have hcons := addressBytes_cons publicKeyHex
  have h25 := addressBytes_length publicKeyHex
  have hlt := addressBytes_lt publicKeyHex
  have h30mem : (ADDRESS_VERSION : Nat) ∈ addressBytes publicKeyHex := by
    rw [hcons]; exact List.mem_cons_self _ _
  have hnz : ∃ b ∈ addressBytes publicKeyHex, b ≠ 0 :=
    ⟨ADDRESS_VERSION, h30mem, by norm_num [ADDRESS_VERSION]⟩
  have hne : addressBytes publicKeyHex ≠ [] := by
    rw [hcons]; exact List.cons_ne_nil _ _
  have hv := hexToNat_bytesToHex (addressBytes publicKeyHex) hne hlt
  have htwA : (addressBytes publicKeyHex).takeWhile (· = 0) = [] := by
    rw [hcons]
    exact List.takeWhile_cons_of_neg (by norm_num [ADDRESS_VERSION])
  have henc : base58Encode (addressBytes publicKeyHex)
      = some (encode58Aux (Nat.ofDigits 256 (addressBytes publicKeyHex).reverse + 1)
          (Nat.ofDigits 256 (addressBytes publicKeyHex).reverse)) := by
    rw [base58Encode, hv]
    simp only [Option.map_some']
    rw [htwA, List.map_nil, List.nil_append]
  obtain ⟨hlo, hhi⟩ := addressBytes_val publicKeyHex
  have hlow : 12 * 58 ^ 33 ≤ Nat.ofDigits 256 (addressBytes publicKeyHex).reverse := by
    have h12 : (12 : Nat) * 58 ^ 33 ≤ 30 * 2 ^ 192 := by norm_num
    omega
  have hhigh : Nat.ofDigits 256 (addressBytes publicKeyHex).reverse < 13 * 58 ^ 33 := by
    have h13 : (31 : Nat) * 2 ^ 192 ≤ 13 * 58 ^ 33 := by norm_num
    omega
  obtain ⟨rest, hr⟩ := encode58Aux_leading 33
    (Nat.ofDigits 256 (addressBytes publicKeyHex).reverse)
    (Nat.ofDigits 256 (addressBytes publicKeyHex).reverse + 1)
    (by have : (1 : Nat) * 58 ^ 33 ≤ 12 * 58 ^ 33 := by norm_num
        omega)
    (by have : (13 : Nat) * 58 ^ 33 ≤ 58 ^ 34 := by norm_num
        omega)
    (Nat.lt_succ_self _)
  have hdiv : Nat.ofDigits 256 (addressBytes publicKeyHex).reverse / 58 ^ 33 = 12 :=
    Nat.div_eq_of_lt_le hlow (by omega)
  have haddr : base58Encode (addressBytes publicKeyHex)
      = some (Char.ofNat 68 :: rest) := by
    rw [henc, hr, hdiv, show b58Char 12 = Char.ofNat 68 from by decide]
  have hdec : base58Decode (Char.ofNat 68 :: rest) = some (addressBytes publicKeyHex) :=
    base58Decode_base58Encode _ hlt hnz _ haddr
  have hver : (addressBytes publicKeyHex).getD 0 0 = ADDRESS_VERSION := by
    rw [hcons]; rfl
  refine ⟨Char.ofNat 68 :: rest, by rw [publicKeyToAddress_eq, haddr], ?_, rfl, hdec,
    by rw [hcons, List.cons_append], h25, ?_⟩
  · exact (validateAddress_iff _).mpr
      ⟨rfl, addressBytes publicKeyHex, hdec, h25, hver, addressBytes_checksum publicKeyHex⟩
  · intro i v s hi hv256 hvne hencM
    have hMlen : ((addressBytes publicKeyHex).set i v).length = 25 := by
      rw [List.length_set, h25]
    have hMlt : ∀ b ∈ (addressBytes publicKeyHex).set i v, b < 256 := by
      intro b hb
      rcases mem_set_cases v _ i b hb with hb | rfl
      · exact hlt b hb
      · exact hv256
    cases i with
    | zero =>
        by_cases hv0 : v = 0
        · subst hv0
          left
          have hM0 : (addressBytes publicKeyHex).set 0 0
              = 0 :: (ripemd160 (sha256Sync (hexToBytes publicKeyHex))
                ++ (sha256Sync (sha256Sync (ADDRESS_VERSION ::
                    ripemd160 (sha256Sync (hexToBytes publicKeyHex))))).take 4) := by
            rw [hcons]
            rfl
          have hMne : (addressBytes publicKeyHex).set 0 0 ≠ [] := by
            rw [hM0]; exact List.cons_ne_nil _ _
          have hvM := hexToNat_bytesToHex _ hMne hMlt
          rw [base58Encode, hvM] at hencM
          simp only [Option.map_some'] at hencM
          rw [hM0, List.takeWhile_cons_of_pos (by norm_num)] at hencM
          have hshead : s.head? = some (b58Char 0) := by
            rw [← Option.some.inj hencM]
            rfl
          apply validateAddress_eq_false
          rintro ⟨hdx, -⟩
          rw [hshead] at hdx
          exact absurd (Option.some.inj hdx) (by decide)
        · left
          have hM0 : (addressBytes publicKeyHex).set 0 v
              = v :: (ripemd160 (sha256Sync (hexToBytes publicKeyHex))
                ++ (sha256Sync (sha256Sync (ADDRESS_VERSION ::
                    ripemd160 (sha256Sync (hexToBytes publicKeyHex))))).take 4) := by
            rw [hcons]
            rfl
          have hMnz : ∃ b ∈ (addressBytes publicKeyHex).set 0 v, b ≠ 0 := by
            rw [hM0]; exact ⟨v, List.mem_cons_self _ _, hv0⟩
          have hdecM := base58Decode_base58Encode _ hMlt hMnz s hencM
          apply validateAddress_eq_false
          rintro ⟨-, d, hd2, -, hverd, -⟩
          rw [hdecM] at hd2
          cases Option.some.inj hd2
          rw [hM0] at hverd
          rw [hver] at hvne
          exact hvne hverd
    | succ j =>
        have hMcons : (addressBytes publicKeyHex).set (j + 1) v
            = ADDRESS_VERSION :: ((ripemd160 (sha256Sync (hexToBytes publicKeyHex))
              ++ (sha256Sync (sha256Sync (ADDRESS_VERSION ::
                  ripemd160 (sha256Sync (hexToBytes publicKeyHex))))).take 4).set j v) := by
          rw [hcons]
          rfl
        have hMnz : ∃ b ∈ (addressBytes publicKeyHex).set (j + 1) v, b ≠ 0 := by
          rw [hMcons]
          exact ⟨ADDRESS_VERSION, List.mem_cons_self _ _, by norm_num [ADDRESS_VERSION]⟩
        have hdecM := base58Decode_base58Encode _ hMlt hMnz s hencM
        by_cases hhd : s.head? = some (Char.ofNat 68)
        · by_cases hile : j + 1 ≤ 20
          · by_cases hcoll : (sha256Sync (sha256Sync
                (((addressBytes publicKeyHex).set (j + 1) v).take 21))).take 4
                = (addressBytes publicKeyHex).drop 21
            · right
              exact ⟨by omega, by omega, hcoll⟩
            · left
              apply validateAddress_eq_false
              rintro ⟨-, d, hd2, -, -, hchk⟩
              rw [hdecM] at hd2
              cases Option.some.inj hd2
              have hdropM : ((addressBytes publicKeyHex).set (j + 1) v).drop 21
                  = (addressBytes publicKeyHex).drop 21 :=
                drop_set_of_lt v _ (j + 1) 21 (by omega)
              exact hcoll (by rw [← hchk, hdropM])
          · left
            apply validateAddress_eq_false
            rintro ⟨-, d, hd2, -, -, hchk⟩
            rw [hdecM] at hd2
            cases Option.some.inj hd2
            have htakeM : ((addressBytes publicKeyHex).set (j + 1) v).take 21
                = (addressBytes publicKeyHex).take 21 :=
              take_set_of_le v _ (j + 1) 21 (by omega)
            have hsetsuffix : (addressBytes publicKeyHex).set (j + 1) v
                = (ADDRESS_VERSION :: ripemd160 (sha256Sync (hexToBytes publicKeyHex)))
                  ++ ((sha256Sync (sha256Sync (ADDRESS_VERSION ::
                      ripemd160 (sha256Sync (hexToBytes publicKeyHex))))).take 4).set
                    (j + 1 - 21) v := by
              have hgen := set_append_right
                (ADDRESS_VERSION :: ripemd160 (sha256Sync (hexToBytes publicKeyHex)))
                ((sha256Sync (sha256Sync (ADDRESS_VERSION ::
                  ripemd160 (sha256Sync (hexToBytes publicKeyHex))))).take 4)
                v (j + 1 - 21)
              rw [versionedPayload_length,
                show 21 + (j + 1 - 21) = j + 1 from by omega] at hgen
              rw [addressBytes_split]
              exact hgen
            have hdropM : ((addressBytes publicKeyHex).set (j + 1) v).drop 21
                = ((addressBytes publicKeyHex).drop 21).set (j + 1 - 21) v := by
              rw [hsetsuffix, addressBytes_drop,
                show (21 : Nat) = (ADDRESS_VERSION ::
                  ripemd160 (sha256Sync (hexToBytes publicKeyHex))).length
                  from (versionedPayload_length publicKeyHex).symm]
              exact List.drop_left _ _
            have hchklen : ((addressBytes publicKeyHex).drop 21).length = 4 := by
              rw [List.length_drop, h25]
            have hvne2 : v ≠ ((addressBytes publicKeyHex).drop 21).getD (j + 1 - 21) 0 := by
              have hgen := getD_append_right
                (ADDRESS_VERSION :: ripemd160 (sha256Sync (hexToBytes publicKeyHex)))
                ((sha256Sync (sha256Sync (ADDRESS_VERSION ::
                  ripemd160 (sha256Sync (hexToBytes publicKeyHex))))).take 4) (j + 1 - 21)
              rw [versionedPayload_length,
                show 21 + (j + 1 - 21) = j + 1 from by omega, ← addressBytes_split,
                ← addressBytes_drop] at hgen
              intro hc
              apply hvne
              rw [hc, hgen]
            refine set_ne_of_getD ((addressBytes publicKeyHex).drop 21) (j + 1 - 21) v
              (by rw [hchklen]; omega) hvne2 ?_
            rw [← hdropM, hchk, htakeM, addressBytes_checksum]
        · left
          apply validateAddress_eq_false
          rintro ⟨hdx, -⟩
          exact hhd hdx

set_option maxRecDepth 100000 in
set_option maxHeartbeats 1000000 in
/-- Witness for C3: the fixed-vector public key derives the documented
address, which validates; zeroing the last checksum byte of its 25
decoded bytes re-encodes to a string validateAddress rejects. -/
theorem publicKeyToAddress_validates_witness :
    publicKeyToAddress
      "02ccb34578b0edf3fa4a7cb488a969fd6e36ea3744dd5458b307f95b125cc57fe6".data
      = some "DFSVTrK1N53SeFiKKXRUVKCZKRvmA2xzoU".data ∧
    validateAddress "DFSVTrK1N53SeFiKKXRUVKCZKRvmA2xzoU".data = true ∧
    validateAddress "DFSVTrK1N53SeFiKKXRUVKCZKRvmA2xzn3".data = false := by
  obtain ⟨addr, h1, h2, -, -, -, -, hmut⟩ := publicKeyToAddress_validates
    "02ccb34578b0edf3fa4a7cb488a969fd6e36ea3744dd5458b307f95b125cc57fe6".data
  have haddr : addr = "DFSVTrK1N53SeFiKKXRUVKCZKRvmA2xzoU".data := by
    rw [fixed_vector_address] at h1
    exact (Option.some.inj h1).symm
  rw [haddr] at h2
  refine ⟨fixed_vector_address, h2, ?_⟩
  have hres := hmut 24 0 "DFSVTrK1N53SeFiKKXRUVKCZKRvmA2xzn3".data
    (by norm_num) (by norm_num) (by decide) (by decide)
  rcases hres with h | ⟨-, hle, -⟩
  · exact h
  · omega

end Dinari
